import Mathlib

/-!
Verification of the go-mmstruct block-file allocator (package mmf).

The development shallowly embeds the code of src/mmf/blockfile.go
(the free-list/stack variant whose header is five u32 fields) and the
cursor read/write of src/mmf/mappedfile.go.  A block file is modelled
as a state holding the mapper size in bytes together with the u32
words stored in each block: word 0..4 of a block are the bfHeader
fields (magic, blocksize, next, free_len, free_head) and word 5+j is
entry j of the free-list array, exactly the layout the Go code reads
through its pointer casts.  Machine integers are Nat/Int with explicit
mod 2^32 wherever the Go code converts to uint32 or can wrap.
-/

/-- 2^32, the modulus of Go uint32 arithmetic. -/
def U32 : Nat := 4294967296

/-- Go conversion int -> uint32 (truncation to the low 32 bits). -/
def u32ofInt (i : Int) : Nat := (i % (U32 : Int)).toNat

/-- BlockFileMagic from blockfile.go: 0xB10CF11E. -/
def BlockFileMagic : Nat := 0xB10CF11E

/-- reversedBlockFileMagic from blockfile.go: 0x1EF10CB1, the byte-swapped magic. -/
def reversedBlockFileMagic : Nat := 0x1EF10CB1

/-- The errors the embedded operations can produce.  eof stands for io.EOF,
the sentinel used internally by freeListPush/freeListPop; the others are the
distinct fmt.Errorf messages of blockfile.go, plus mapOutOfRange for a failed
Mapper.Map and mapperTooSmall for the open-time size check. -/
inductive BFError where
  | eof
  | foreignPlatform
  | badMagic
  | freeListBroken
  | freeListOverflow
  | sliceTooSmall
  | mapOutOfRange
  | mapperTooSmall
  deriving DecidableEq, Repr

/-- The state of a block file: mapper size in bytes, and the u32 word at
index w of block b (mem b w).  Blocks never materialised are zero in states
built from freshBF, matching OS zero-fill. -/
structure BFState where
  size : Nat
  mem : Nat → Nat → Nat

/-- Write one u32 word of one block. -/
def setWord (s : BFState) (b w v : Nat) : BFState :=
  { s with mem := fun b2 w2 => if b2 = b ∧ w2 = w then v else s.mem b2 w2 }

/-- The bfHeader struct of blockfile.go (five u32 fields). -/
structure bfHeader where
  magic : Nat
  blocksize : Nat
  next : Nat
  free_len : Nat
  free_head : Nat
  deriving DecidableEq, Repr

/-- Reading the bfHeader at the start of block b, as bfHeaderFromSlice does
through its pointer cast (words 0..4 of the block). -/
def readHeader (s : BFState) (b : Nat) : bfHeader :=
  ⟨s.mem b 0, s.mem b 1, s.mem b 2, s.mem b 3, s.mem b 4⟩

/-- bfHeader.Validate from blockfile.go, preserving the order of the checks
and the uint32 wraparound in 20 + free_len*4 (the Go expression
uint32(bfHeaderSize)+hdr.free_len*4 is computed mod 2^32). -/
def bfHeader.Validate (h : bfHeader) : Option BFError :=
  if h.magic = reversedBlockFileMagic then some .foreignPlatform
  else if h.magic ≠ BlockFileMagic then some .badMagic
  else if h.free_len < h.free_head then some .freeListBroken
  else if h.blocksize < (20 + h.free_len * 4) % U32 then some .freeListOverflow
  else none

/-- The free-list slice of block b: the first free_head u32 entries after the
header, exactly what the freeList() method of blockfile.go returns. -/
def freeListOf (s : BFState) (b : Nat) : List Nat :=
  (List.range (readHeader s b).free_head).map (fun j => s.mem b (5 + j))

/-- State after hdr.freeListPush on block b succeeded: free_head incremented
and the entry stored in the slot that was at the old top. -/
def pushState (s : BFState) (b : Nat) (v : Nat) : BFState :=
  setWord (setWord s b 4 ((readHeader s b).free_head + 1)) b (5 + (readHeader s b).free_head) v

/-- State after hdr.freeListPop on block b succeeded: free_head decremented
(the popped slot is not cleared, as in the Go code). -/
def popState (s : BFState) (b : Nat) : BFState :=
  setWord s b 4 ((readHeader s b).free_head - 1)

/-- The entry hdr.freeListPop returns: the slot at index free_head - 1. -/
def topOf (s : BFState) (b : Nat) : Nat :=
  s.mem b (5 + ((readHeader s b).free_head - 1))

/-- hdr.freeListPush from blockfile.go: io.EOF when the node is saturated
(cur >= free_len), otherwise store the entry and bump free_head. -/
def freeListPush (s : BFState) (b : Nat) (entry : Nat) : Except BFError BFState :=
  if (readHeader s b).free_len ≤ (readHeader s b).free_head then .error .eof
  else .ok (pushState s b entry)

/-- hdr.freeListPop from blockfile.go: io.EOF when the node is empty
(cur <= 0 on a uint32 means cur = 0), otherwise return the top entry and
decrement free_head. -/
def freeListPop (s : BFState) (b : Nat) : Except BFError (Nat × BFState) :=
  if (readHeader s b).free_head = 0 then .error .eof
  else .ok (topOf s b, popState s b)

/-- The checks a BlockFile.mapHeaderBlock call performs before running its
handler on block b.  The first test is Mapper.Map.  Modelled from the spec:
the MappedFile implementation of Mapper.Map is not under src/, and section
4.1 of the spec says map(offset, length, fn) fails if the requested range
[offset, offset+length) exceeds the current size (a negative offset is not a
subrange of the region and fails as well).  Then bfHeaderFromSlice requires
at least the 20 header bytes, and bfHeader.Validate runs. -/
def mapHdrCheck (B : Nat) (s : BFState) (b : Int) : Option BFError :=
  if b * (B : Int) < 0 ∨ (s.size : Int) < b * B + B then some .mapOutOfRange
  else if B < 20 then some .sliceTooSmall
  else (readHeader s b.toNat).Validate

/-- The capacity a header initialised for blocksize B receives:
(blocksize - uint32(bfHeaderSize))/4 with uint32 wraparound in the
subtraction, as in the header init code of blockfile.go. -/
def goCapacity (B : Nat) : Nat := ((U32 + B - 20) % U32) / 4

/-- The capacity (B - 20)/4 used by the spec; equals goCapacity for any
legal uint32 blocksize of at least the 20 header bytes. -/
def capacity (B : Nat) : Nat := (B - 20) / 4

/-- The header init routine of blockfile.go applied to block b: magic,
blocksize and free_len are written, next and free_head are zeroed; the slot
array is left untouched (the Go code does not clear it). -/
def initHeaderAt (s : BFState) (b : Nat) (B : Nat) : BFState :=
  { s with mem := fun b2 w2 =>
      if b2 = b then
        if w2 = 0 then BlockFileMagic
        else if w2 = 1 then B
        else if w2 = 2 then 0
        else if w2 = 3 then goCapacity B
        else if w2 = 4 then 0
        else s.mem b2 w2
      else s.mem b2 w2 }

/-- The state CreateBlockFileInMapperWithSize produces in a mapper of size
exactly B backed by zero-filled bytes: block 0 initialised as an empty
free-list root, everything else zero. -/
def freshBF (B : Nat) : BFState :=
  initHeaderAt { size := B, mem := fun _ _ => 0 } 0 B

/-- BlockFile.AllocateBlock from blockfile.go: pop from the root node; when
it is empty and next is nonzero, pop from that overflow node; when that is
empty too, detach it from the chain and return it as the allocated block;
with no free entry anywhere, grow the file by one block via Truncate. -/
def AllocateBlock (B : Nat) (s : BFState) : Except BFError (Nat × BFState) :=
  match mapHdrCheck B s 0 with
  | some e => .error e
  | none =>
    match freeListPop s 0 with
    | .ok r => .ok r
    | .error _ =>
      let nextHdrIdx := (readHeader s 0).next
      if nextHdrIdx ≠ 0 then
        match mapHdrCheck B s (nextHdrIdx : Int) with
        | some e => .error e
        | none =>
          match freeListPop s nextHdrIdx with
          | .ok r => .ok r
          | .error _ =>
            match mapHdrCheck B s 0 with
            | some e => .error e
            | none => .ok (nextHdrIdx, setWord s 0 2 ((readHeader s nextHdrIdx).next % U32))
      else
        let newBlockIndex := (s.size + B - 1) / B
        .ok (newBlockIndex, { s with size := (newBlockIndex + 1) * B })

/-- BlockFile.FreeBlock from blockfile.go: push onto the root node; when it
is full and next is nonzero, push onto that overflow node; otherwise turn
block i itself into a fresh free-list header chained in front of the old
overflow chain and point the root at it.  The pushed value is uint32(block),
and the handler writes hdr.next = uint32(nextHdrIdx). -/
def FreeBlock (B : Nat) (s : BFState) (block : Int) : Except BFError BFState :=
  match mapHdrCheck B s 0 with
  | some e => .error e
  | none =>
    match freeListPush s 0 (u32ofInt block) with
    | .ok s1 => .ok s1
    | .error _ =>
      let nextHdrIdx := (readHeader s 0).next
      let overflow : Option (Except BFError BFState) :=
        if nextHdrIdx ≠ 0 then
          match mapHdrCheck B s (nextHdrIdx : Int) with
          | some e => some (.error e)
          | none =>
            match freeListPush s nextHdrIdx (u32ofInt block) with
            | .ok s1 => some (.ok s1)
            | .error _ => none
        else none
      match overflow with
      | some r => r
      | none =>
        if block * (B : Int) < 0 ∨ (s.size : Int) < block * B + B then .error .mapOutOfRange
        else if B < 20 then .error .sliceTooSmall
        else
          let s1 := setWord (initHeaderAt s block.toNat B) block.toNat 2 (nextHdrIdx % U32)
          match mapHdrCheck B s1 0 with
          | some e => .error e
          | none => .ok (setWord s1 0 2 (u32ofInt block))

/-- OpenBlockFileFromMapper from blockfile.go: map the first 20 bytes
(Mapper.Map bounds modelled from the spec as in mapHdrCheck), validate the
root header, then require the mapper to hold at least one block.  On success
the resulting BlockFile carries the blocksize read from the header. -/
def OpenBlockFileFromMapper (s : BFState) : Except BFError Nat :=
  if (s.size : Int) < 20 then .error .mapOutOfRange
  else
    match (readHeader s 0).Validate with
    | some e => .error e
    | none =>
      if s.size < (readHeader s 0).blocksize then .error .mapperTooSmall
      else .ok (readHeader s 0).blocksize

/-- The result of BlockFile.MapBlock as seen by the caller: either the
request is rejected up front, or it is delegated to Mapper.Map with the
given offset and length (and the handler receives exactly that range). -/
inductive MapAccess where
  | rejected
  | mapped (off : Int) (len : Nat)
  deriving DecidableEq, Repr

/-- BlockFile.MapBlock from blockfile.go lines 828-833: indices not
greater than 0 are rejected with the header-block error before the mapper is
consulted; any other index is forwarded to Mapper.Map at offset block*B. -/
def MapBlock (B : Nat) (block : Int) : MapAccess :=
  if block ≤ 0 then .rejected else .mapped (block * B) B

/-! ## Frame lemmas for single-word writes and header initialisation -/

theorem mem_setWord (s : BFState) (b w v b2 w2 : Nat) :
    (setWord s b w v).mem b2 w2 = if b2 = b ∧ w2 = w then v else s.mem b2 w2 := rfl

theorem size_setWord (s : BFState) (b w v : Nat) : (setWord s b w v).size = s.size := rfl

theorem readHeader_setWord_ne (s : BFState) (b w v b2 : Nat) (h : b2 ≠ b) :
    readHeader (setWord s b w v) b2 = readHeader s b2 := by
  simp [readHeader, mem_setWord, h]

theorem readHeader_setWord_slot (s : BFState) (b w v b2 : Nat) (h : 5 ≤ w) :
    readHeader (setWord s b w v) b2 = readHeader s b2 := by
  have h0 : ¬((0:Nat) = w) := by omega
  have h1 : ¬((1:Nat) = w) := by omega
  have h2 : ¬((2:Nat) = w) := by omega
  have h3 : ¬((3:Nat) = w) := by omega
  have h4 : ¬((4:Nat) = w) := by omega
  simp [readHeader, mem_setWord, h0, h1, h2, h3, h4]

theorem readHeader_setWord4 (s : BFState) (b v : Nat) :
    readHeader (setWord s b 4 v) b = { readHeader s b with free_head := v } := by
  simp [readHeader, mem_setWord]

theorem readHeader_setWord2 (s : BFState) (b v : Nat) :
    readHeader (setWord s b 2 v) b = { readHeader s b with next := v } := by
  simp [readHeader, mem_setWord]

theorem readHeader_pushState (s : BFState) (b v : Nat) :
    readHeader (pushState s b v) b =
      { readHeader s b with free_head := (readHeader s b).free_head + 1 } := by
  rw [pushState, readHeader_setWord_slot _ _ _ _ _ (by omega), readHeader_setWord4]

theorem readHeader_pushState_ne (s : BFState) (b v b2 : Nat) (h : b2 ≠ b) :
    readHeader (pushState s b v) b2 = readHeader s b2 := by
  rw [pushState, readHeader_setWord_ne _ _ _ _ _ h, readHeader_setWord_ne _ _ _ _ _ h]

theorem readHeader_popState (s : BFState) (b : Nat) :
    readHeader (popState s b) b =
      { readHeader s b with free_head := (readHeader s b).free_head - 1 } := by
  rw [popState, readHeader_setWord4]

theorem readHeader_popState_ne (s : BFState) (b b2 : Nat) (h : b2 ≠ b) :
    readHeader (popState s b) b2 = readHeader s b2 := by
  rw [popState, readHeader_setWord_ne _ _ _ _ _ h]

theorem mem_initHeaderAt (s : BFState) (b B b2 w2 : Nat) :
    (initHeaderAt s b B).mem b2 w2 =
      (if b2 = b then
        if w2 = 0 then BlockFileMagic
        else if w2 = 1 then B
        else if w2 = 2 then 0
        else if w2 = 3 then goCapacity B
        else if w2 = 4 then 0
        else s.mem b2 w2
      else s.mem b2 w2) := rfl

theorem size_initHeaderAt (s : BFState) (b B : Nat) : (initHeaderAt s b B).size = s.size := rfl

theorem readHeader_initHeaderAt_same (s : BFState) (b B : Nat) :
    readHeader (initHeaderAt s b B) b = ⟨BlockFileMagic, B, 0, goCapacity B, 0⟩ := by
  simp [readHeader, mem_initHeaderAt]

theorem readHeader_initHeaderAt_ne (s : BFState) (b B b2 : Nat) (h : b2 ≠ b) :
    readHeader (initHeaderAt s b B) b2 = readHeader s b2 := by
  simp [readHeader, mem_initHeaderAt, h]

/-! ## Free-list slices under writes -/

theorem freeListOf_setWord_ne (s : BFState) (b w v b2 : Nat) (h : b2 ≠ b) :
    freeListOf (setWord s b w v) b2 = freeListOf s b2 := by
  unfold freeListOf
  rw [readHeader_setWord_ne _ _ _ _ _ h]
  apply List.map_congr_left
  intro j _
  simp [mem_setWord, h]

theorem freeListOf_setWord2 (s : BFState) (b v : Nat) :
    freeListOf (setWord s b 2 v) b = freeListOf s b := by
  unfold freeListOf
  rw [readHeader_setWord2]
  apply List.map_congr_left
  intro j _
  have : ¬(5 + j = 2) := by omega
  simp [mem_setWord, this]

theorem freeListOf_pushState_same (s : BFState) (b v : Nat) :
    freeListOf (pushState s b v) b = freeListOf s b ++ [v] := by
  have hc : (readHeader (pushState s b v) b).free_head = (readHeader s b).free_head + 1 := by
    rw [readHeader_pushState]
  unfold freeListOf
  rw [hc, List.range_succ, List.map_append]
  congr 1
  · apply List.map_congr_left
    intro j hj
    have hj' : j < (readHeader s b).free_head := List.mem_range.mp hj
    simp only [pushState, mem_setWord]
    split_ifs with hA hB
    · exact absurd hA.2 (by omega)
    · exact absurd hB.2 (by omega)
    · rfl
  · simp [pushState, mem_setWord]

theorem freeListOf_pushState_ne (s : BFState) (b v b2 : Nat) (h : b2 ≠ b) :
    freeListOf (pushState s b v) b2 = freeListOf s b2 := by
  rw [pushState, freeListOf_setWord_ne _ _ _ _ _ h, freeListOf_setWord_ne _ _ _ _ _ h]

theorem freeListOf_popState_split (s : BFState) (b : Nat)
    (h : (readHeader s b).free_head ≠ 0) :
    freeListOf s b = freeListOf (popState s b) b ++ [topOf s b] := by
  have hc : (readHeader (popState s b) b).free_head = (readHeader s b).free_head - 1 := by
    rw [readHeader_popState]
  unfold freeListOf
  rw [hc]
  have hsp : (readHeader s b).free_head = ((readHeader s b).free_head - 1) + 1 := by omega
  rw [hsp, List.range_succ, List.map_append]
  congr 1
  · apply List.map_congr_left
    intro j hj
    simp only [popState, mem_setWord]
    split_ifs with hA
    · exact absurd hA.2 (by omega)
    · rfl

theorem freeListOf_popState_ne (s : BFState) (b b2 : Nat) (h : b2 ≠ b) :
    freeListOf (popState s b) b2 = freeListOf s b2 := by
  rw [popState, freeListOf_setWord_ne _ _ _ _ _ h]

theorem freeListOf_initHeaderAt_same (s : BFState) (b B : Nat) :
    freeListOf (initHeaderAt s b B) b = [] := by
  unfold freeListOf
  rw [readHeader_initHeaderAt_same]
  rfl

theorem freeListOf_initHeaderAt_ne (s : BFState) (b B b2 : Nat) (h : b2 ≠ b) :
    freeListOf (initHeaderAt s b B) b2 = freeListOf s b2 := by
  unfold freeListOf
  rw [readHeader_initHeaderAt_ne _ _ _ _ h]
  apply List.map_congr_left
  intro j _
  simp [mem_initHeaderAt, h]

/-! ## The free-list chain and the entries it stores -/

/-- links s b l holds when l is the rest of the free-list chain after node b:
each node names the following one in its next field, no listed node is 0, and
the last node has next 0 (0 is the chain terminator in blockfile.go). -/
def links (s : BFState) : Nat → List Nat → Prop
  | b, [] => (readHeader s b).next = 0
  | b, c :: rest => (readHeader s b).next = c ∧ c ≠ 0 ∧ links s c rest

/-- All block indices stored across the free-list nodes listed in l. -/
def entriesOf (s : BFState) : List Nat → List Nat
  | [] => []
  | b :: rest => freeListOf s b ++ entriesOf s rest

theorem links_congr (s s' : BFState) (l : List Nat) (b : Nat)
    (h : ∀ x ∈ b :: l, (readHeader s' x).next = (readHeader s x).next)
    (hl : links s b l) : links s' b l := by
  induction l generalizing b with
  | nil =>
    show (readHeader s' b).next = 0
    rw [h b (by simp)]
    exact hl
  | cons c rest ih =>
    obtain ⟨h1, h2, h3⟩ := hl
    refine ⟨?_, h2, ih c (fun x hx => h x ?_) h3⟩
    · rw [h b (by simp)]; exact h1
    · simp only [List.mem_cons] at hx ⊢
      tauto

theorem links_deterministic (s : BFState) (l1 : List Nat) :
    ∀ l2 b, links s b l1 → links s b l2 → l1 = l2 := by
  induction l1 with
  | nil =>
    intro l2 b h1 h2
    cases l2 with
    | nil => rfl
    | cons c rest =>
      obtain ⟨hc, hc0, -⟩ := h2
      exact absurd (h1.symm.trans hc) (Ne.symm hc0)
  | cons c rest ih =>
    intro l2 b h1 h2
    obtain ⟨hc, hc0, hrest⟩ := h1
    cases l2 with
    | nil => exact absurd (hc.symm.trans h2) hc0
    | cons c2 rest2 =>
      obtain ⟨hc2, -, hrest2⟩ := h2
      have hcc : c = c2 := hc.symm.trans hc2
      subst hcc
      rw [ih rest2 c hrest hrest2]

theorem entriesOf_congr (s s' : BFState) (l : List Nat)
    (h : ∀ x ∈ l, freeListOf s' x = freeListOf s x) : entriesOf s' l = entriesOf s l := by
  induction l with
  | nil => rfl
  | cons b rest ih =>
    show freeListOf s' b ++ entriesOf s' rest = freeListOf s b ++ entriesOf s rest
    rw [h b (by simp), ih (fun x hx => h x (by simp [hx]))]

theorem mem_entriesOf (s : BFState) (l : List Nat) (x : Nat) :
    x ∈ entriesOf s l ↔ ∃ b ∈ l, x ∈ freeListOf s b := by
  induction l with
  | nil => simp [entriesOf]
  | cons b rest ih =>
    show x ∈ freeListOf s b ++ entriesOf s rest ↔ _
    simp [ih]

/-! ## Elimination and arithmetic helpers -/

theorem validate_none_iff (h : bfHeader) :
    h.Validate = none ↔
      (h.magic = BlockFileMagic ∧ h.free_head ≤ h.free_len ∧
       (20 + h.free_len * 4) % U32 ≤ h.blocksize) := by
  have hne : BlockFileMagic ≠ reversedBlockFileMagic := by decide
  unfold bfHeader.Validate
  split_ifs with h1 h2 h3 h4
  · simp only [reduceCtorEq, false_iff]
    rintro ⟨hm, -, -⟩
    exact hne (hm ▸ h1)
  · simp only [reduceCtorEq, false_iff]
    rintro ⟨hm, -, -⟩
    exact h2 hm
  · simp only [reduceCtorEq, false_iff]
    rintro ⟨-, hle, -⟩
    omega
  · simp only [reduceCtorEq, false_iff]
    rintro ⟨-, -, hle⟩
    omega
  · simp only [true_iff]
    refine ⟨by push_neg at h2; exact h2, by omega, by omega⟩

theorem mapHdrCheck_none_iff (B : Nat) (s : BFState) (b : Nat) :
    mapHdrCheck B s (b : Int) = none ↔
      ((b + 1) * B ≤ s.size ∧ 20 ≤ B ∧ (readHeader s b).Validate = none) := by
  unfold mapHdrCheck
  have hb : ¬((b : Int) * (B : Int) < 0) := not_lt.mpr (by positivity)
  have hsz : ((s.size : Int) < (b : Int) * B + B) ↔ (s.size < (b + 1) * B) := by
    rw [show ((b : Int) * B + B) = (((b + 1) * B : Nat) : Int) by push_cast; ring]
    exact Nat.cast_lt
  constructor
  · intro h
    split_ifs at h with hc1 hc2
    refine ⟨?_, by omega, ?_⟩
    · rcases not_or.mp hc1 with ⟨-, hs⟩
      by_contra hcon
      exact hs (hsz.mpr (by omega))
    · rwa [Int.toNat_natCast] at h
  · rintro ⟨hle, h20, hval⟩
    rw [if_neg, if_neg (by omega), Int.toNat_natCast]
    · exact hval
    · rintro (hc | hc)
      · exact hb hc
      · exact absurd (hsz.mp hc) (by omega)

theorem goCapacity_eq (B : Nat) (h1 : 20 ≤ B) (h2 : B < U32) :
    goCapacity B = (B - 20) / 4 := by
  unfold goCapacity
  rw [show U32 + B - 20 = U32 + (B - 20) by omega, Nat.add_mod_left,
    Nat.mod_eq_of_lt (by omega)]

theorem capacity_fits (B : Nat) (h1 : 20 ≤ B) (h2 : B < U32) :
    (20 + (B - 20) / 4 * 4) % U32 ≤ B := by
  have hle : (B - 20) / 4 * 4 ≤ B - 20 := Nat.div_mul_le_self _ _
  rw [Nat.mod_eq_of_lt (by omega)]
  omega

/-! ## Branch characterisations of AllocateBlock and FreeBlock -/

theorem allocate_pop_root (B : Nat) (s : BFState)
    (hchk : mapHdrCheck B s 0 = none) (hne : (readHeader s 0).free_head ≠ 0) :
    AllocateBlock B s = .ok (topOf s 0, popState s 0) := by
  simp only [AllocateBlock, hchk, freeListPop, if_neg hne]

theorem allocate_pop_over (B : Nat) (s : BFState)
    (hchk : mapHdrCheck B s 0 = none) (h0 : (readHeader s 0).free_head = 0)
    (hn : (readHeader s 0).next ≠ 0)
    (hchkn : mapHdrCheck B s ((readHeader s 0).next : Int) = none)
    (hcn : (readHeader s (readHeader s 0).next).free_head ≠ 0) :
    AllocateBlock B s =
      .ok (topOf s (readHeader s 0).next, popState s (readHeader s 0).next) := by
  have hpop0 : freeListPop s 0 = .error .eof := by simp [freeListPop, h0]
  have hpopn : freeListPop s (readHeader s 0).next =
      .ok (topOf s (readHeader s 0).next, popState s (readHeader s 0).next) := by
    simp [freeListPop, hcn]
  simp [AllocateBlock, hchk, hpop0, hn, hchkn, hpopn]

theorem allocate_consume (B : Nat) (s : BFState)
    (hchk : mapHdrCheck B s 0 = none) (h0 : (readHeader s 0).free_head = 0)
    (hn : (readHeader s 0).next ≠ 0)
    (hchkn : mapHdrCheck B s ((readHeader s 0).next : Int) = none)
    (hcn : (readHeader s (readHeader s 0).next).free_head = 0) :
    AllocateBlock B s =
      .ok ((readHeader s 0).next,
           setWord s 0 2 ((readHeader s (readHeader s 0).next).next % U32)) := by
  have hpop0 : freeListPop s 0 = .error .eof := by simp [freeListPop, h0]
  have hpopn : freeListPop s (readHeader s 0).next = .error .eof := by
    simp [freeListPop, hcn]
  simp [AllocateBlock, hchk, hpop0, hn, hchkn, hpopn]

theorem allocate_extend (B : Nat) (s : BFState)
    (hchk : mapHdrCheck B s 0 = none) (h0 : (readHeader s 0).free_head = 0)
    (hn : (readHeader s 0).next = 0) :
    AllocateBlock B s =
      .ok ((s.size + B - 1) / B, { s with size := ((s.size + B - 1) / B + 1) * B }) := by
  have hpop0 : freeListPop s 0 = .error .eof := by simp [freeListPop, h0]
  simp [AllocateBlock, hchk, hpop0, hn]

theorem free_push_root (B : Nat) (s : BFState) (i : Int)
    (hchk : mapHdrCheck B s 0 = none)
    (hroom : (readHeader s 0).free_head < (readHeader s 0).free_len) :
    FreeBlock B s i = .ok (pushState s 0 (u32ofInt i)) := by
  simp only [FreeBlock, hchk, freeListPush, if_neg (not_le.mpr hroom)]

theorem free_push_over (B : Nat) (s : BFState) (i : Int)
    (hchk : mapHdrCheck B s 0 = none)
    (hfull : (readHeader s 0).free_len ≤ (readHeader s 0).free_head)
    (hn : (readHeader s 0).next ≠ 0)
    (hchkn : mapHdrCheck B s ((readHeader s 0).next : Int) = none)
    (hroom : (readHeader s (readHeader s 0).next).free_head
               < (readHeader s (readHeader s 0).next).free_len) :
    FreeBlock B s i = .ok (pushState s (readHeader s 0).next (u32ofInt i)) := by
  simp only [FreeBlock, hchk, freeListPush, if_pos hfull, if_pos hn, hchkn,
    if_neg (not_le.mpr hroom)]

theorem free_newheader (B : Nat) (s : BFState) (i : Nat)
    (hchk : mapHdrCheck B s 0 = none) (hBU : B < U32)
    (hfull : (readHeader s 0).free_len ≤ (readHeader s 0).free_head)
    (hover : (readHeader s 0).next = 0 ∨
       ((readHeader s 0).next ≠ 0 ∧
        mapHdrCheck B s ((readHeader s 0).next : Int) = none ∧
        (readHeader s (readHeader s 0).next).free_len
          ≤ (readHeader s (readHeader s 0).next).free_head))
    (hsz : (i + 1) * B ≤ s.size) :
    FreeBlock B s (i : Int) =
      .ok (setWord (setWord (initHeaderAt s i B) i 2 ((readHeader s 0).next % U32))
             0 2 (u32ofInt (i : Int))) := by
  obtain ⟨hsz0, h20, hval0⟩ := (mapHdrCheck_none_iff B s 0).mp hchk
  have hbound : ¬((i : Int) * (B : Int) < 0 ∨ (s.size : Int) < (i : Int) * B + B) := by
    rintro (hc | hc)
    · exact absurd hc (not_lt.mpr (by positivity))
    · have : ((i : Int) * B + B) = (((i + 1) * B : Nat) : Int) := by push_cast; ring
      rw [this] at hc
      have := Nat.cast_lt.mp hc
      omega
  have hs1 : mapHdrCheck B
      (setWord (initHeaderAt s i B) i 2 ((readHeader s 0).next % U32)) 0 = none := by
    rw [show ((0 : Int)) = ((0 : Nat) : Int) by rfl, mapHdrCheck_none_iff]
    refine ⟨by simpa using hsz0, h20, ?_⟩
    by_cases hi : i = 0
    · subst hi
      rw [readHeader_setWord2, readHeader_initHeaderAt_same]
      rw [validate_none_iff]
      refine ⟨rfl, by simp, ?_⟩
      simp only
      rw [goCapacity_eq B h20 hBU]
      exact capacity_fits B h20 hBU
    · rw [readHeader_setWord_ne _ _ _ _ _ (Ne.symm hi),
        readHeader_initHeaderAt_ne _ _ _ _ (Ne.symm hi)]
      exact hval0
  have hpush0 : freeListPush s 0 (u32ofInt (i : Int)) = .error .eof := by
    simp [freeListPush, hfull]
  have hB20 : ¬ B < 20 := by omega
  rcases hover with hn0 | ⟨hn, hchkn, hfulln⟩
  · rw [hn0] at hs1
    simp only [Nat.zero_mod] at hs1
    simp [FreeBlock, hchk, hpush0, hn0, hbound, hB20, Int.toNat_natCast, hs1]
  · have hpushn : freeListPush s (readHeader s 0).next (u32ofInt (i : Int)) =
        .error .eof := by simp [freeListPush, hfulln]
    simp [FreeBlock, hchk, hpush0, hn, hchkn, hpushn, hbound, hB20,
      Int.toNat_natCast, hs1]

/-! ## Supporting facts for the preservation proof -/

theorem freeListOf_nil (s : BFState) (b : Nat) (h : (readHeader s b).free_head = 0) :
    freeListOf s b = [] := by
  unfold freeListOf
  rw [h]
  rfl

theorem size_popState (s : BFState) (b : Nat) : (popState s b).size = s.size := rfl

theorem size_pushState (s : BFState) (b v : Nat) : (pushState s b v).size = s.size := rfl

theorem u32ofInt_natCast (i : Nat) (h : i < U32) : u32ofInt (i : Int) = i := by
  unfold u32ofInt
  rw [Int.emod_eq_of_lt (by positivity) (by exact_mod_cast h)]
  exact Int.toNat_natCast i

/-- The header facts that hold for every node of a well-formed chain built by
the allocator with blocksize B. -/
structure GoodHdr (B : Nat) (s : BFState) (b : Nat) : Prop where
  magic_eq : (readHeader s b).magic = BlockFileMagic
  bsz_eq : (readHeader s b).blocksize = B
  flen_eq : (readHeader s b).free_len = capacity B
  fhead_le : (readHeader s b).free_head ≤ capacity B

theorem goodHdr_validate (B : Nat) (s : BFState) (b : Nat) (h20 : 20 ≤ B) (hU : B < U32)
    (hg : GoodHdr B s b) : (readHeader s b).Validate = none := by
  rw [validate_none_iff]
  refine ⟨hg.magic_eq, ?_, ?_⟩
  · rw [hg.flen_eq]
    exact hg.fhead_le
  · rw [hg.flen_eq, hg.bsz_eq]
    exact capacity_fits B h20 hU

theorem goodHdr_check (B : Nat) (s : BFState) (b : Nat) (h20 : 20 ≤ B) (hU : B < U32)
    (hg : GoodHdr B s b) (hsz : (b + 1) * B ≤ s.size) :
    mapHdrCheck B s (b : Int) = none :=
  (mapHdrCheck_none_iff B s b).mpr ⟨hsz, h20, goodHdr_validate B s b h20 hU hg⟩

/-- The full inductive invariant of a block file reachable from a fresh file:
A is the list of currently allocated block indices and 0 :: ch the free-list
chain.  All listed sets are mutually disjoint and within the file. -/
structure InvFull (B : Nat) (s : BFState) (A : List Nat) (ch : List Nat) : Prop where
  size_lb : B ≤ s.size
  size_dvd : B ∣ s.size
  chain_links : links s 0 ch
  chain_nodup : (0 :: ch).Nodup
  chain_bound : ∀ c ∈ ch, 1 ≤ c ∧ (c + 1) * B ≤ s.size ∧ c < U32
  hdr_good : ∀ c ∈ 0 :: ch, GoodHdr B s c
  ent_nodup : (entriesOf s (0 :: ch)).Nodup
  ent_bound : ∀ e ∈ entriesOf s (0 :: ch), 1 ≤ e ∧ (e + 1) * B ≤ s.size
  ent_chain : ∀ e ∈ entriesOf s (0 :: ch), e ∉ 0 :: ch
  a_nodup : A.Nodup
  a_bound : ∀ a ∈ A, 1 ≤ a ∧ (a + 1) * B ≤ s.size
  a_chain : ∀ a ∈ A, a ∉ 0 :: ch
  a_ent : ∀ a ∈ A, a ∉ entriesOf s (0 :: ch)

/-- The operation sequences of the amended claim: starting from a freshly
created file, allocate freely, and free only indices that are currently
allocated (and small enough for the uint32 truncation in FreeBlock to be the
identity).  The list A tracks the currently allocated indices. -/
inductive Trace (B : Nat) : BFState → List Nat → Prop where
  | init : Trace B (freshBF B) []
  | alloc {s A i s'} : Trace B s A → AllocateBlock B s = .ok (i, s') →
      Trace B s' (i :: A)
  | free {s A s'} (i : Nat) : Trace B s A → i ∈ A → i < U32 →
      FreeBlock B s (i : Int) = .ok s' → Trace B s' (A.erase i)

theorem inv_fresh (B : Nat) (h20 : 20 ≤ B) (hU : B < U32) :
    InvFull B (freshBF B) [] [] := by
  have hh : readHeader (freshBF B) 0 = ⟨BlockFileMagic, B, 0, goCapacity B, 0⟩ :=
    readHeader_initHeaderAt_same _ _ _
  have hfl : freeListOf (freshBF B) 0 = [] := freeListOf_nil _ _ (by rw [hh])
  have hent : entriesOf (freshBF B) [0] = [] := by
    show freeListOf (freshBF B) 0 ++ entriesOf (freshBF B) [] = []
    rw [hfl]
    rfl
  refine ⟨le_refl B, dvd_refl B, ?_, by simp, by simp, ?_, ?_, ?_, ?_, by simp, by simp,
    by simp, by simp⟩
  · show (readHeader (freshBF B) 0).next = 0
    rw [hh]
  · rintro c hc
    simp only [List.mem_cons, List.not_mem_nil, or_false] at hc
    subst hc
    exact ⟨by rw [hh], by rw [hh], by rw [hh, goCapacity_eq B h20 hU]; rfl, by rw [hh]; simp⟩
  · rw [hent]
    exact List.nodup_nil
  · rw [hent]
    simp
  · rw [hent]
    simp

theorem entriesOf_cons (s : BFState) (b : Nat) (l : List Nat) :
    entriesOf s (b :: l) = freeListOf s b ++ entriesOf s l := rfl

theorem nodup_shrink_mid {l1 l2 : List Nat} {x : Nat}
    (h : (l1 ++ x :: l2).Nodup) : (l1 ++ l2).Nodup ∧ x ∉ l1 ++ l2 := by
  rw [List.nodup_middle, List.nodup_cons] at h
  exact ⟨h.2, h.1⟩

theorem nodup_insert_mid {l1 l2 : List Nat} {x : Nat}
    (h : (l1 ++ l2).Nodup) (hx : x ∉ l1 ++ l2) : (l1 ++ x :: l2).Nodup := by
  rw [List.nodup_middle, List.nodup_cons]
  exact ⟨hx, h⟩

theorem mem_of_mem_removed_mid {l1 l2 : List Nat} {x e : Nat}
    (h : e ∈ l1 ++ l2) : e ∈ l1 ++ x :: l2 := by
  rcases List.mem_append.mp h with h | h
  · exact List.mem_append.mpr (Or.inl h)
  · exact List.mem_append.mpr (Or.inr (List.mem_cons_of_mem _ h))

theorem goodHdr_congr {B : Nat} {s s' : BFState} {b : Nat}
    (h : readHeader s' b = readHeader s b) (hg : GoodHdr B s b) : GoodHdr B s' b :=
  ⟨by rw [h]; exact hg.magic_eq, by rw [h]; exact hg.bsz_eq,
   by rw [h]; exact hg.flen_eq, by rw [h]; exact hg.fhead_le⟩

theorem inv_alloc_root (B : Nat) (s : BFState) (A ch : List Nat)
    (inv : InvFull B s A ch) (hne : (readHeader s 0).free_head ≠ 0) :
    InvFull B (popState s 0) (topOf s 0 :: A) ch := by
  have hch0 : (0 : Nat) ∉ ch := (List.nodup_cons.mp inv.chain_nodup).1
  have hsplit := freeListOf_popState_split s 0 hne
  have hErest : entriesOf (popState s 0) ch = entriesOf s ch :=
    entriesOf_congr _ _ _ (fun x hx =>
      freeListOf_popState_ne s 0 x (fun hx0 => hch0 (hx0 ▸ hx)))
  have hE' : entriesOf (popState s 0) (0 :: ch) =
      freeListOf (popState s 0) 0 ++ entriesOf s ch := by
    rw [entriesOf_cons, hErest]
  have hE : entriesOf s (0 :: ch) =
      freeListOf (popState s 0) 0 ++ topOf s 0 :: entriesOf s ch := by
    rw [entriesOf_cons, hsplit, List.append_assoc, List.singleton_append]
  have hshr := nodup_shrink_mid (hE ▸ inv.ent_nodup)
  have hiE : topOf s 0 ∈ entriesOf s (0 :: ch) := by
    rw [hE]
    simp
  have hsub : ∀ e ∈ entriesOf (popState s 0) (0 :: ch), e ∈ entriesOf s (0 :: ch) := by
    intro e he
    rw [hE' ] at he
    rw [hE]
    exact mem_of_mem_removed_mid he
  have hhd0 : readHeader (popState s 0) 0 =
      { readHeader s 0 with free_head := (readHeader s 0).free_head - 1 } :=
    readHeader_popState s 0
  have hhdne : ∀ c ∈ ch, readHeader (popState s 0) c = readHeader s c := by
    intro c hc
    exact readHeader_popState_ne s 0 c (fun h0 => hch0 (h0 ▸ hc))
  refine ⟨?_, ?_, ?_, inv.chain_nodup, ?_, ?_, ?_, ?_, ?_, ?_, ?_, ?_, ?_⟩
  · rw [size_popState]; exact inv.size_lb
  · rw [size_popState]; exact inv.size_dvd
  · refine links_congr s (popState s 0) ch 0 ?_ inv.chain_links
    intro x hx
    rcases List.mem_cons.mp hx with h0 | hxc
    · subst h0
      rw [hhd0]
    · rw [hhdne x hxc]
  · intro c hc
    rw [size_popState]
    exact inv.chain_bound c hc
  · intro c hc
    rcases List.mem_cons.mp hc with h0 | hxc
    · subst h0
      have hg := inv.hdr_good 0 (by simp)
      exact ⟨by rw [hhd0]; exact hg.magic_eq, by rw [hhd0]; exact hg.bsz_eq,
        by rw [hhd0]; exact hg.flen_eq,
        by rw [hhd0]; exact le_trans (Nat.sub_le _ _) hg.fhead_le⟩
    · exact goodHdr_congr (hhdne c hxc) (inv.hdr_good c (List.mem_cons_of_mem _ hxc))
  · rw [hE']
    exact hshr.1
  · intro e he
    rw [size_popState]
    exact inv.ent_bound e (hsub e he)
  · intro e he
    exact inv.ent_chain e (hsub e he)
  · rw [List.nodup_cons]
    refine ⟨fun hmem => inv.a_ent _ hmem hiE, inv.a_nodup⟩
  · intro a ha
    rw [size_popState]
    rcases List.mem_cons.mp ha with h0 | ha2
    · subst h0
      exact inv.ent_bound _ hiE
    · exact inv.a_bound a ha2
  · intro a ha
    rcases List.mem_cons.mp ha with h0 | ha2
    · subst h0
      exact inv.ent_chain _ hiE
    · exact inv.a_chain a ha2
  · intro a ha he
    rcases List.mem_cons.mp ha with h0 | ha2
    · subst h0
      rw [hE'] at he
      exact hshr.2 he
    · exact inv.a_ent a ha2 (hsub _ he)

theorem inv_alloc_over (B : Nat) (s : BFState) (A : List Nat) (n : Nat) (rest : List Nat)
    (inv : InvFull B s A (n :: rest)) (hcn : (readHeader s n).free_head ≠ 0) :
    InvFull B (popState s n) (topOf s n :: A) (n :: rest) := by
  have hch := inv.chain_nodup
  have h0n : (0 : Nat) ∉ n :: rest := (List.nodup_cons.mp hch).1
  have hn0 : n ≠ 0 := fun h => h0n (by simp [h])
  have h0rest : (0 : Nat) ∉ rest := fun h => h0n (List.mem_cons_of_mem _ h)
  have hnrest : n ∉ rest := (List.nodup_cons.mp (List.nodup_cons.mp hch).2).1
  have hsplit := freeListOf_popState_split s n hcn
  have hL0 : freeListOf (popState s n) 0 = freeListOf s 0 :=
    freeListOf_popState_ne s n 0 (Ne.symm hn0)
  have hrest : entriesOf (popState s n) rest = entriesOf s rest :=
    entriesOf_congr _ _ _ (fun x hx =>
      freeListOf_popState_ne s n x (fun hxn => hnrest (hxn ▸ hx)))
  have hE : entriesOf s (0 :: n :: rest) =
      (freeListOf s 0 ++ freeListOf (popState s n) n) ++ topOf s n :: entriesOf s rest := by
    rw [entriesOf_cons, entriesOf_cons, hsplit]
    simp [List.append_assoc]
  have hE' : entriesOf (popState s n) (0 :: n :: rest) =
      (freeListOf s 0 ++ freeListOf (popState s n) n) ++ entriesOf s rest := by
    rw [entriesOf_cons, entriesOf_cons, hL0, hrest, List.append_assoc]
  have hshr := nodup_shrink_mid (hE ▸ inv.ent_nodup)
  have hiE : topOf s n ∈ entriesOf s (0 :: n :: rest) := by
    rw [hE]
    simp
  have hsub : ∀ e ∈ entriesOf (popState s n) (0 :: n :: rest),
      e ∈ entriesOf s (0 :: n :: rest) := by
    intro e he
    rw [hE'] at he
    rw [hE]
    exact mem_of_mem_removed_mid he
  have hhdn : readHeader (popState s n) n =
      { readHeader s n with free_head := (readHeader s n).free_head - 1 } :=
    readHeader_popState s n
  have hhdne : ∀ c ∈ 0 :: n :: rest, c ≠ n → readHeader (popState s n) c = readHeader s c :=
    fun c _ hc => readHeader_popState_ne s n c hc
  refine ⟨?_, ?_, ?_, inv.chain_nodup, ?_, ?_, ?_, ?_, ?_, ?_, ?_, ?_, ?_⟩
  · rw [size_popState]; exact inv.size_lb
  · rw [size_popState]; exact inv.size_dvd
  · refine links_congr s (popState s n) (n :: rest) 0 ?_ inv.chain_links
    intro x hx
    by_cases hxn : x = n
    · subst hxn
      rw [hhdn]
    · rw [hhdne x hx hxn]
  · intro c hc
    rw [size_popState]
    exact inv.chain_bound c hc
  · intro c hc
    by_cases hcn2 : c = n
    · subst hcn2
      have hg := inv.hdr_good c hc
      exact ⟨by rw [hhdn]; exact hg.magic_eq, by rw [hhdn]; exact hg.bsz_eq,
        by rw [hhdn]; exact hg.flen_eq,
        by rw [hhdn]; exact le_trans (Nat.sub_le _ _) hg.fhead_le⟩
    · exact goodHdr_congr (hhdne c hc hcn2) (inv.hdr_good c hc)
  · rw [hE']
    exact hshr.1
  · intro e he
    rw [size_popState]
    exact inv.ent_bound e (hsub e he)
  · intro e he
    exact inv.ent_chain e (hsub e he)
  · rw [List.nodup_cons]
    exact ⟨fun hmem => inv.a_ent _ hmem hiE, inv.a_nodup⟩
  · intro a ha
    rw [size_popState]
    rcases List.mem_cons.mp ha with h0 | ha2
    · subst h0
      exact inv.ent_bound _ hiE
    · exact inv.a_bound a ha2
  · intro a ha
    rcases List.mem_cons.mp ha with h0 | ha2
    · subst h0
      exact inv.ent_chain _ hiE
    · exact inv.a_chain a ha2
  · intro a ha he
    rcases List.mem_cons.mp ha with h0 | ha2
    · subst h0
      rw [hE'] at he
      exact hshr.2 he
    · exact inv.a_ent a ha2 (hsub _ he)

theorem inv_alloc_consume (B : Nat) (s : BFState) (A : List Nat) (n : Nat) (rest : List Nat)
    (inv : InvFull B s A (n :: rest))
    (h0 : (readHeader s 0).free_head = 0)
    (hcn : (readHeader s n).free_head = 0) :
    InvFull B (setWord s 0 2 ((readHeader s n).next % U32)) (n :: A) rest := by
  obtain ⟨hnext0, hn0, hlinksn⟩ := inv.chain_links
  have hch := inv.chain_nodup
  have h0n : (0 : Nat) ∉ n :: rest := (List.nodup_cons.mp hch).1
  have h0rest : (0 : Nat) ∉ rest := fun h => h0n (List.mem_cons_of_mem _ h)
  have hnrest : n ∉ rest := (List.nodup_cons.mp (List.nodup_cons.mp hch).2).1
  have hvlt : (readHeader s n).next < U32 := by
    cases rest with
    | nil =>
      have : (readHeader s n).next = 0 := hlinksn
      rw [this]
      decide
    | cons m r2 =>
      obtain ⟨hm, -, -⟩ := hlinksn
      rw [hm]
      exact (inv.chain_bound m (by simp)).2.2
  rw [Nat.mod_eq_of_lt hvlt]
  have hhd0 : readHeader (setWord s 0 2 (readHeader s n).next) 0 =
      { readHeader s 0 with next := (readHeader s n).next } := readHeader_setWord2 s 0 _
  have hhdne : ∀ c : Nat, c ≠ 0 →
      readHeader (setWord s 0 2 (readHeader s n).next) c = readHeader s c :=
    fun c hc => readHeader_setWord_ne s 0 2 _ c hc
  have hL0 : freeListOf s 0 = [] := freeListOf_nil s 0 h0
  have hLn : freeListOf s n = [] := freeListOf_nil s n hcn
  have hEold : entriesOf s (0 :: n :: rest) = entriesOf s rest := by
    rw [entriesOf_cons, entriesOf_cons, hL0, hLn]
    rfl
  have hE' : entriesOf (setWord s 0 2 (readHeader s n).next) (0 :: rest) =
      entriesOf s rest := by
    rw [entriesOf_cons]
    have h1 : freeListOf (setWord s 0 2 (readHeader s n).next) 0 = [] := by
      rw [freeListOf_setWord2, hL0]
    have h2 : entriesOf (setWord s 0 2 (readHeader s n).next) rest = entriesOf s rest :=
      entriesOf_congr _ _ _ (fun x hx =>
        freeListOf_setWord_ne s 0 2 _ x (fun h => h0rest (h ▸ hx)))
    rw [h1, h2]
    rfl
  have hnE : n ∉ entriesOf s rest := by
    intro hmem
    have := inv.ent_chain n (by rw [hEold]; exact hmem)
    exact this (by simp)
  refine ⟨?_, ?_, ?_, ?_, ?_, ?_, ?_, ?_, ?_, ?_, ?_, ?_, ?_⟩
  · rw [size_setWord]; exact inv.size_lb
  · rw [size_setWord]; exact inv.size_dvd
  · cases rest with
    | nil =>
      show (readHeader (setWord s 0 2 (readHeader s n).next) 0).next = 0
      rw [hhd0]
      exact hlinksn
    | cons m r2 =>
      obtain ⟨hm, hm0, hlm⟩ := hlinksn
      refine ⟨?_, hm0, ?_⟩
      · rw [hhd0]
        exact hm
      · refine links_congr s _ r2 m ?_ hlm
        intro x hx
        have hx0 : x ≠ 0 := fun h => h0rest (by simp [h ▸ hx])
        rw [hhdne x hx0]
  · have hsub : (0 :: rest).Sublist (0 :: n :: rest) :=
      List.Sublist.cons₂ 0 (List.sublist_cons_self n rest)
    exact hsub.nodup inv.chain_nodup
  · intro c hc
    rw [size_setWord]
    exact inv.chain_bound c (List.mem_cons_of_mem _ hc)
  · intro c hc
    rcases List.mem_cons.mp hc with hc0 | hc2
    · subst hc0
      have hg := inv.hdr_good 0 (by simp)
      exact ⟨by rw [hhd0]; exact hg.magic_eq, by rw [hhd0]; exact hg.bsz_eq,
        by rw [hhd0]; exact hg.flen_eq, by rw [hhd0]; exact hg.fhead_le⟩
    · have hc0 : c ≠ 0 := fun h => h0rest (h ▸ hc2)
      exact goodHdr_congr (hhdne c hc0)
        (inv.hdr_good c (List.mem_cons_of_mem _ (List.mem_cons_of_mem _ hc2)))
  · rw [hE']
    exact hEold ▸ inv.ent_nodup
  · intro e he
    rw [size_setWord]
    exact inv.ent_bound e (by rw [hEold]; exact hE' ▸ he)
  · intro e he
    rw [hE'] at he
    have hold := inv.ent_chain e (by rw [hEold]; exact he)
    intro hmem
    rcases List.mem_cons.mp hmem with h1 | h1
    · exact hold (by simp [h1])
    · exact hold (by simp [h1])
  · rw [List.nodup_cons]
    refine ⟨fun hmem => ?_, inv.a_nodup⟩
    exact inv.a_chain n hmem (by simp)
  · intro a ha
    rw [size_setWord]
    rcases List.mem_cons.mp ha with h1 | h1
    · subst h1
      have := inv.chain_bound a (by simp)
      exact ⟨this.1, this.2.1⟩
    · exact inv.a_bound a h1
  · intro a ha
    rcases List.mem_cons.mp ha with h1 | h1
    · subst h1
      intro hmem
      rcases List.mem_cons.mp hmem with h2 | h2
      · exact hn0 h2
      · exact hnrest h2
    · intro hmem
      have hold := inv.a_chain a h1
      rcases List.mem_cons.mp hmem with h2 | h2
      · exact hold (by simp [h2])
      · exact hold (by simp [h2])
  · intro a ha he
    rw [hE'] at he
    rcases List.mem_cons.mp ha with h1 | h1
    · subst h1
      exact hnE he
    · exact inv.a_ent a h1 (by rw [hEold]; exact he)

theorem inv_alloc_extend (B : Nat) (s : BFState) (A : List Nat)
    (inv : InvFull B s A []) (hB : 0 < B)
    (h0 : (readHeader s 0).free_head = 0) :
    InvFull B { s with size := (s.size / B + 1) * B } (s.size / B :: A) [] := by
  have hsz : s.size / B * B = s.size := Nat.div_mul_cancel inv.size_dvd
  have hk1 : 1 ≤ s.size / B := (Nat.one_le_div_iff hB).mpr inv.size_lb
  have hE : entriesOf s [0] = [] := by
    rw [entriesOf_cons, freeListOf_nil s 0 h0]
    rfl
  have hE2 : entriesOf { s with size := (s.size / B + 1) * B } [0] = [] := hE
  have hgrow : s.size ≤ (s.size / B + 1) * B := by
    calc s.size = s.size / B * B := hsz.symm
    _ ≤ (s.size / B + 1) * B := Nat.mul_le_mul_right B (by omega)
  refine ⟨?_, ?_, inv.chain_links, inv.chain_nodup, ?_, ?_, ?_, ?_, ?_, ?_, ?_, ?_, ?_⟩
  · show B ≤ (s.size / B + 1) * B
    calc B = 1 * B := (one_mul B).symm
    _ ≤ (s.size / B + 1) * B := Nat.mul_le_mul_right B (by omega)
  · exact dvd_mul_left B _
  · intro c hc
    exact absurd hc (List.not_mem_nil c)
  · intro c hc
    exact @goodHdr_congr B s { s with size := (s.size / B + 1) * B } c rfl
      (inv.hdr_good c hc)
  · rw [hE2]
    exact List.nodup_nil
  · intro e he
    rw [hE2] at he
    exact absurd he (List.not_mem_nil e)
  · intro e he
    rw [hE2] at he
    exact absurd he (List.not_mem_nil e)
  · rw [List.nodup_cons]
    refine ⟨fun hmem => ?_, inv.a_nodup⟩
    have hb := (inv.a_bound _ hmem).2
    have hb2 : (s.size / B + 1) * B ≤ s.size / B * B := by rw [hsz]; exact hb
    have := Nat.le_of_mul_le_mul_right hb2 hB
    omega
  · intro a ha
    rcases List.mem_cons.mp ha with h1 | h1
    · subst h1
      exact ⟨hk1, le_refl _⟩
    · have := inv.a_bound a h1
      exact ⟨this.1, le_trans this.2 hgrow⟩
  · intro a ha
    rcases List.mem_cons.mp ha with h1 | h1
    · subst h1
      simp only [List.mem_cons, List.not_mem_nil, or_false]
      omega
    · exact inv.a_chain a h1
  · intro a ha he
    rw [hE2] at he
    exact absurd he (List.not_mem_nil a)

theorem mem_mid_iff {l1 l2 : List Nat} {x e : Nat} :
    e ∈ l1 ++ x :: l2 ↔ e = x ∨ e ∈ l1 ++ l2 := by
  simp only [List.mem_append, List.mem_cons]
  tauto

theorem entriesOf_push_mem (s : BFState) (b v : Nat) (l : List Nat)
    (hnd : l.Nodup) (hb : b ∈ l) :
    ∃ l1 l2, entriesOf s l = l1 ++ l2 ∧
      entriesOf (pushState s b v) l = l1 ++ v :: l2 := by
  induction l with
  | nil => exact absurd hb (List.not_mem_nil b)
  | cons c rest ih =>
    by_cases hbc : b = c
    · subst hbc
      have hbrest : b ∉ rest := (List.nodup_cons.mp hnd).1
      refine ⟨freeListOf s b, entriesOf s rest, rfl, ?_⟩
      rw [entriesOf_cons, freeListOf_pushState_same,
        entriesOf_congr s (pushState s b v) rest
          (fun x hx => freeListOf_pushState_ne s b v x (fun h => hbrest (h ▸ hx)))]
      simp
    · have hbrest : b ∈ rest := by
        rcases List.mem_cons.mp hb with h | h
        · exact absurd h hbc
        · exact h
      obtain ⟨l1, l2, h1, h2⟩ := ih (List.nodup_cons.mp hnd).2 hbrest
      refine ⟨freeListOf s c ++ l1, l2, ?_, ?_⟩
      · rw [entriesOf_cons, h1, List.append_assoc]
      · rw [entriesOf_cons, h2, freeListOf_pushState_ne s b v c (Ne.symm hbc),
          List.append_assoc]

theorem inv_free_push (B : Nat) (s : BFState) (A ch : List Nat) (b i : Nat)
    (inv : InvFull B s A ch) (hb : b ∈ 0 :: ch)
    (hroom : (readHeader s b).free_head < (readHeader s b).free_len)
    (hi : i ∈ A) :
    InvFull B (pushState s b i) (A.erase i) ch := by
  obtain ⟨hi1, hib⟩ := inv.a_bound i hi
  have hichain := inv.a_chain i hi
  have hiE := inv.a_ent i hi
  obtain ⟨l1, l2, hold, hnew⟩ :=
    entriesOf_push_mem s b i (0 :: ch) inv.chain_nodup hb
  have hEsub : ∀ e ∈ entriesOf (pushState s b i) (0 :: ch),
      e = i ∨ e ∈ entriesOf s (0 :: ch) := by
    intro e he
    rw [hnew] at he
    rcases mem_mid_iff.mp he with h | h
    · exact Or.inl h
    · exact Or.inr (hold ▸ h)
  have hhdne : ∀ c : Nat, c ≠ b → readHeader (pushState s b i) c = readHeader s c :=
    fun c hc => readHeader_pushState_ne s b i c hc
  refine ⟨?_, ?_, ?_, inv.chain_nodup, ?_, ?_, ?_, ?_, ?_, ?_, ?_, ?_, ?_⟩
  · rw [size_pushState]; exact inv.size_lb
  · rw [size_pushState]; exact inv.size_dvd
  · refine links_congr s (pushState s b i) ch 0 ?_ inv.chain_links
    intro x hx
    by_cases hxb : x = b
    · subst hxb
      rw [readHeader_pushState]
    · rw [hhdne x hxb]
  · intro c hc
    rw [size_pushState]
    exact inv.chain_bound c hc
  · intro c hc
    by_cases hcb : c = b
    · subst hcb
      have hg := inv.hdr_good c hc
      have hlt : (readHeader s c).free_head + 1 ≤ capacity B := by
        have h1 := hg.flen_eq
        have h2 := hroom
        omega
      exact ⟨by rw [readHeader_pushState]; exact hg.magic_eq,
        by rw [readHeader_pushState]; exact hg.bsz_eq,
        by rw [readHeader_pushState]; exact hg.flen_eq,
        by rw [readHeader_pushState]; exact hlt⟩
    · exact goodHdr_congr (hhdne c hcb) (inv.hdr_good c hc)
  · rw [hnew]
    exact nodup_insert_mid (hold ▸ inv.ent_nodup) (hold ▸ hiE)
  · intro e he
    rw [size_pushState]
    rcases hEsub e he with h | h
    · subst h
      exact ⟨hi1, hib⟩
    · exact inv.ent_bound e h
  · intro e he
    rcases hEsub e he with h | h
    · subst h
      exact hichain
    · exact inv.ent_chain e h
  · exact inv.a_nodup.erase i
  · intro a ha
    rw [size_pushState]
    exact inv.a_bound a (List.mem_of_mem_erase ha)
  · intro a ha
    exact inv.a_chain a (List.mem_of_mem_erase ha)
  · intro a ha he
    have hane := (inv.a_nodup.mem_erase_iff.mp ha)
    rcases hEsub a he with h | h
    · exact hane.1 h
    · exact inv.a_ent a hane.2 h

theorem inv_free_newheader (B : Nat) (s : BFState) (A ch : List Nat) (i : Nat)
    (inv : InvFull B s A ch) (h20 : 20 ≤ B) (hU : B < U32)
    (hi : i ∈ A) (hiU : i < U32) :
    InvFull B (setWord (setWord (initHeaderAt s i B) i 2 (readHeader s 0).next) 0 2 i)
      (A.erase i) (i :: ch) := by
  obtain ⟨hi1, hib⟩ := inv.a_bound i hi
  have hichain := inv.a_chain i hi
  have hiE := inv.a_ent i hi
  have hi0 : i ≠ 0 := by omega
  have hch0 : (0 : Nat) ∉ ch := (List.nodup_cons.mp inv.chain_nodup).1
  have hinch : i ∉ ch := fun h => hichain (List.mem_cons_of_mem _ h)
  have e1 : readHeader (setWord (initHeaderAt s i B) i 2 (readHeader s 0).next) 0 =
      readHeader s 0 := by
    rw [readHeader_setWord_ne _ _ _ _ _ (Ne.symm hi0),
      readHeader_initHeaderAt_ne _ _ _ _ (Ne.symm hi0)]
  have rh0 : readHeader
      (setWord (setWord (initHeaderAt s i B) i 2 (readHeader s 0).next) 0 2 i) 0 =
      { readHeader s 0 with next := i } := by
    rw [readHeader_setWord2, e1]
  have rhi : readHeader
      (setWord (setWord (initHeaderAt s i B) i 2 (readHeader s 0).next) 0 2 i) i =
      ⟨BlockFileMagic, B, (readHeader s 0).next, goCapacity B, 0⟩ := by
    rw [readHeader_setWord_ne _ _ _ _ _ hi0, readHeader_setWord2,
      readHeader_initHeaderAt_same]
  have rhc : ∀ c : Nat, c ≠ 0 → c ≠ i → readHeader
      (setWord (setWord (initHeaderAt s i B) i 2 (readHeader s 0).next) 0 2 i) c =
      readHeader s c := by
    intro c hc0 hci
    rw [readHeader_setWord_ne _ _ _ _ _ hc0, readHeader_setWord_ne _ _ _ _ _ hci,
      readHeader_initHeaderAt_ne _ _ _ _ hci]
  have fl0 : freeListOf
      (setWord (setWord (initHeaderAt s i B) i 2 (readHeader s 0).next) 0 2 i) 0 =
      freeListOf s 0 := by
    rw [freeListOf_setWord2, freeListOf_setWord_ne _ _ _ _ _ (Ne.symm hi0),
      freeListOf_initHeaderAt_ne _ _ _ _ (Ne.symm hi0)]
  have fli : freeListOf
      (setWord (setWord (initHeaderAt s i B) i 2 (readHeader s 0).next) 0 2 i) i = [] :=
    freeListOf_nil _ _ (by rw [rhi])
  have flc : ∀ c : Nat, c ≠ 0 → c ≠ i → freeListOf
      (setWord (setWord (initHeaderAt s i B) i 2 (readHeader s 0).next) 0 2 i) c =
      freeListOf s c := by
    intro c hc0 hci
    rw [freeListOf_setWord_ne _ _ _ _ _ hc0, freeListOf_setWord_ne _ _ _ _ _ hci,
      freeListOf_initHeaderAt_ne _ _ _ _ hci]
  have hErest : entriesOf
      (setWord (setWord (initHeaderAt s i B) i 2 (readHeader s 0).next) 0 2 i) ch =
      entriesOf s ch :=
    entriesOf_congr _ _ _ (fun x hx =>
      flc x (fun h => hch0 (h ▸ hx)) (fun h => hinch (h ▸ hx)))
  have hE' : entriesOf
      (setWord (setWord (initHeaderAt s i B) i 2 (readHeader s 0).next) 0 2 i)
        (0 :: i :: ch) = entriesOf s (0 :: ch) := by
    rw [entriesOf_cons, entriesOf_cons, fl0, fli, hErest, entriesOf_cons]
    simp
  refine ⟨?_, ?_, ?_, ?_, ?_, ?_, ?_, ?_, ?_, ?_, ?_, ?_, ?_⟩
  · exact inv.size_lb
  · exact inv.size_dvd
  · refine ⟨by rw [rh0], hi0, ?_⟩
    cases ch with
    | nil =>
      show (readHeader _ i).next = 0
      rw [rhi]
      exact inv.chain_links
    | cons m r2 =>
      obtain ⟨hm, hm0, hlm⟩ := inv.chain_links
      refine ⟨by rw [rhi]; exact hm, hm0, ?_⟩
      refine links_congr s _ r2 m ?_ hlm
      intro x hx
      have hx0 : x ≠ 0 := by
        intro h
        exact hch0 (by simpa [h] using hx)
      have hxi : x ≠ i := by
        intro h
        exact hinch (by simpa [h] using hx)
      rw [rhc x hx0 hxi]
  · rw [List.nodup_cons, List.nodup_cons]
    refine ⟨?_, hinch, (List.nodup_cons.mp inv.chain_nodup).2⟩
    intro hmem
    rcases List.mem_cons.mp hmem with h | h
    · exact hi0 h.symm
    · exact hch0 h
  · intro c hc
    rcases List.mem_cons.mp hc with h | h
    · subst h
      exact ⟨hi1, hib, hiU⟩
    · exact inv.chain_bound c h
  · intro c hc
    rcases List.mem_cons.mp hc with h | hc2
    · subst h
      have hg := inv.hdr_good 0 (by simp)
      exact ⟨by rw [rh0]; exact hg.magic_eq, by rw [rh0]; exact hg.bsz_eq,
        by rw [rh0]; exact hg.flen_eq, by rw [rh0]; exact hg.fhead_le⟩
    rcases List.mem_cons.mp hc2 with h | h
    · subst h
      exact ⟨by rw [rhi], by rw [rhi],
        by rw [rhi]; exact goCapacity_eq B h20 hU, by rw [rhi]; simp⟩
    · have hc0 : c ≠ 0 := fun hh => hch0 (hh ▸ h)
      have hci : c ≠ i := fun hh => hinch (hh ▸ h)
      exact goodHdr_congr (rhc c hc0 hci)
        (inv.hdr_good c (List.mem_cons_of_mem _ h))
  · rw [hE']
    exact inv.ent_nodup
  · intro e he
    rw [hE'] at he
    exact inv.ent_bound e he
  · intro e he
    rw [hE'] at he
    have hold := inv.ent_chain e he
    intro hmem
    rcases List.mem_cons.mp hmem with h | hmem2
    · exact hold (by simp [h])
    rcases List.mem_cons.mp hmem2 with h | h
    · exact hiE (h ▸ he)
    · exact hold (by simp [h])
  · exact inv.a_nodup.erase i
  · intro a ha
    exact inv.a_bound a (List.mem_of_mem_erase ha)
  · intro a ha
    have hane := inv.a_nodup.mem_erase_iff.mp ha
    have hold := inv.a_chain a hane.2
    intro hmem
    rcases List.mem_cons.mp hmem with h | hmem2
    · exact hold (by simp [h])
    rcases List.mem_cons.mp hmem2 with h | h
    · exact hane.1 h
    · exact hold (by simp [h])
  · intro a ha he
    rw [hE'] at he
    exact inv.a_ent a (List.mem_of_mem_erase ha) he

theorem root_check (B : Nat) (s : BFState) (h20 : 20 ≤ B) (hU : B < U32)
    (hg : GoodHdr B s 0) (hsz : B ≤ s.size) : mapHdrCheck B s 0 = none := by
  have := goodHdr_check B s 0 h20 hU hg (by simpa using hsz)
  simpa using this

theorem ceil_eq_div (B m : Nat) (hB : 0 < B) (hd : B ∣ m) :
    (m + B - 1) / B = m / B := by
  obtain ⟨k, rfl⟩ := hd
  have h1 : B * k + B - 1 = B * k + (B - 1) := by omega
  rw [h1, Nat.mul_add_div hB, Nat.div_eq_of_lt (by omega),
    Nat.mul_div_cancel_left k hB]
  omega

theorem trace_invFull (B : Nat) (h20 : 20 ≤ B) (hU : B < U32) :
    ∀ {s : BFState} {A : List Nat}, Trace B s A → ∃ ch, InvFull B s A ch := by
  have hB0 : 0 < B := by omega
  intro s A t
  induction t with
  | init => exact ⟨[], inv_fresh B h20 hU⟩
  | @alloc s A i s' t heq ih =>
    obtain ⟨ch, inv⟩ := ih
    have hchk0 : mapHdrCheck B s 0 = none :=
      root_check B s h20 hU (inv.hdr_good 0 (by simp)) inv.size_lb
    by_cases h0 : (readHeader s 0).free_head = 0
    · cases ch with
      | nil =>
        have hn : (readHeader s 0).next = 0 := inv.chain_links
        have hchar := allocate_extend B s hchk0 h0 hn
        have hceil : (s.size + B - 1) / B = s.size / B :=
          ceil_eq_div B s.size hB0 inv.size_dvd
        rw [hceil] at hchar
        have hid := heq.symm.trans hchar
        simp only [Except.ok.injEq, Prod.mk.injEq] at hid
        obtain ⟨hi2, hs2⟩ := hid
        subst hi2
        subst hs2
        exact ⟨[], inv_alloc_extend B s A inv hB0 h0⟩
      | cons n rest =>
        obtain ⟨hm, hm0, -⟩ := inv.chain_links
        have hchkn : mapHdrCheck B s ((readHeader s 0).next : Int) = none := by
          rw [hm]
          exact goodHdr_check B s n h20 hU (inv.hdr_good n (by simp))
            ((inv.chain_bound n (by simp)).2.1)
        have hn : (readHeader s 0).next ≠ 0 := by rw [hm]; exact hm0
        by_cases hcn : (readHeader s n).free_head = 0
        · have hchar := allocate_consume B s hchk0 h0 hn hchkn
            (by rw [hm]; exact hcn)
          rw [hm] at hchar
          have hid := heq.symm.trans hchar
          simp only [Except.ok.injEq, Prod.mk.injEq] at hid
          obtain ⟨hi2, hs2⟩ := hid
          subst hi2
          subst hs2
          exact ⟨rest, inv_alloc_consume B s A i rest inv h0 hcn⟩
        · have hchar := allocate_pop_over B s hchk0 h0 hn hchkn
            (by rw [hm]; exact hcn)
          rw [hm] at hchar
          have hid := heq.symm.trans hchar
          simp only [Except.ok.injEq, Prod.mk.injEq] at hid
          obtain ⟨hi2, hs2⟩ := hid
          subst hi2
          subst hs2
          exact ⟨n :: rest, inv_alloc_over B s A n rest inv hcn⟩
    · have hchar := allocate_pop_root B s hchk0 h0
      have hid := heq.symm.trans hchar
      simp only [Except.ok.injEq, Prod.mk.injEq] at hid
      obtain ⟨hi2, hs2⟩ := hid
      subst hi2
      subst hs2
      exact ⟨ch, inv_alloc_root B s A ch inv h0⟩
  | @free s A s' i t hmem hiU heq ih =>
    obtain ⟨ch, inv⟩ := ih
    have hchk0 : mapHdrCheck B s 0 = none :=
      root_check B s h20 hU (inv.hdr_good 0 (by simp)) inv.size_lb
    have hval : u32ofInt (i : Int) = i := u32ofInt_natCast i hiU
    by_cases hroom : (readHeader s 0).free_head < (readHeader s 0).free_len
    · have hchar := free_push_root B s (i : Int) hchk0 hroom
      rw [hval] at hchar
      have hid := heq.symm.trans hchar
      simp only [Except.ok.injEq] at hid
      subst hid
      exact ⟨ch, inv_free_push B s A ch 0 i inv (by simp) hroom hmem⟩
    · have hfull : (readHeader s 0).free_len ≤ (readHeader s 0).free_head :=
        not_lt.mp hroom
      have hsz : (i + 1) * B ≤ s.size := (inv.a_bound i hmem).2
      cases ch with
      | nil =>
        have hn0 : (readHeader s 0).next = 0 := inv.chain_links
        have hchar := free_newheader B s i hchk0 hU hfull (Or.inl hn0) hsz
        have hmod : (readHeader s 0).next % U32 = (readHeader s 0).next := by
          rw [hn0]
          exact Nat.zero_mod U32
        rw [hmod, hval] at hchar
        have hid := heq.symm.trans hchar
        simp only [Except.ok.injEq] at hid
        subst hid
        exact ⟨i :: [], inv_free_newheader B s A [] i inv h20 hU hmem hiU⟩
      | cons n rest =>
        obtain ⟨hm, hm0, -⟩ := inv.chain_links
        have hnU : n < U32 := (inv.chain_bound n (by simp)).2.2
        have hchkn : mapHdrCheck B s ((readHeader s 0).next : Int) = none := by
          rw [hm]
          exact goodHdr_check B s n h20 hU (inv.hdr_good n (by simp))
            ((inv.chain_bound n (by simp)).2.1)
        have hn : (readHeader s 0).next ≠ 0 := by rw [hm]; exact hm0
        have hmod : (readHeader s 0).next % U32 = (readHeader s 0).next := by
          rw [hm]
          exact Nat.mod_eq_of_lt hnU
        by_cases hroomn : (readHeader s n).free_head < (readHeader s n).free_len
        · have hchar := free_push_over B s (i : Int) hchk0 hfull hn hchkn
            (by rw [hm]; exact hroomn)
          rw [hm, hval] at hchar
          have hid := heq.symm.trans hchar
          simp only [Except.ok.injEq] at hid
          subst hid
          exact ⟨n :: rest, inv_free_push B s A (n :: rest) n i inv (by simp)
            hroomn hmem⟩
        · have hchar := free_newheader B s i hchk0 hU hfull
            (Or.inr ⟨hn, hchkn, by rw [hm]; exact not_lt.mp hroomn⟩) hsz
          rw [hmod, hval] at hchar
          have hid := heq.symm.trans hchar
          simp only [Except.ok.injEq] at hid
          subst hid
          exact ⟨i :: n :: rest,
            inv_free_newheader B s A (n :: rest) i inv h20 hU hmem hiU⟩

/-- The free-list invariant stated by the spec: the chain following next
from block 0 terminates (no cycle), its nodes are distinct, the block
indices listed across all its nodes are distinct, and count does not exceed
capacity on any node. -/
def FreeListInvariant (s : BFState) : Prop :=
  (∃ ch, links s 0 ch) ∧
  ∀ ch, links s 0 ch →
    (0 :: ch).Nodup ∧ (entriesOf s (0 :: ch)).Nodup ∧
    ∀ b ∈ 0 :: ch, (readHeader s b).free_head ≤ (readHeader s b).free_len

theorem invFull_freeListInvariant (B : Nat) (s : BFState) (A ch : List Nat)
    (inv : InvFull B s A ch) : FreeListInvariant s := by
  refine ⟨⟨ch, inv.chain_links⟩, ?_⟩
  intro ch2 hl
  have hcc := links_deterministic s ch2 ch 0 hl inv.chain_links
  subst hcc
  refine ⟨inv.chain_nodup, inv.ent_nodup, ?_⟩
  intro b hb
  have hg := inv.hdr_good b hb
  rw [hg.flen_eq]
  exact hg.fhead_le

/-- An allocate or free call, for describing operation sequences. -/
inductive AFOp where
  | alloc
  | free (i : Int)

/-- Run a sequence of AllocateBlock and FreeBlock calls from a state,
stopping at the first error. -/
def runOps (B : Nat) : BFState → List AFOp → Except BFError BFState
  | s, [] => .ok s
  | s, AFOp.alloc :: rest =>
    match AllocateBlock B s with
    | .error e => .error e
    | .ok r => runOps B r.2 rest
  | s, AFOp.free i :: rest =>
    match FreeBlock B s i with
    | .error e => .error e
    | .ok s1 => runOps B s1 rest

/-- The state of a successful run, with a fallback for the error case. -/
def getOkS : Except BFError BFState → BFState → BFState
  | .ok s, _ => s
  | .error _, d => d

/-! ## The cursor model of MappedFile (mappedfile.go) -/

/-- The state a cursor-style MappedFile operation sees: the mapped bytes
(none once the region is closed) and the current offset. -/
structure MappedFile where
  data : Option (List Nat)
  off : Nat
  deriving DecidableEq, Repr

/-- The errors of the cursor operations: the fixed closed-region error and
the io.EOF sentinel. -/
inductive MFErr where
  | closed
  | eof
  deriving DecidableEq, Repr

/-- MappedFile.Read from mappedfile.go, called with a destination buffer of
length plen.  Returns the count, the error, and the successor state.  A nil
region gives the closed error; an empty buffer returns (0, nil) before the
end-of-region test; a cursor at or past the end gives (0, io.EOF); otherwise
copy copies min(plen, len-off) bytes and the offset advances by the count. -/
def MappedFile.Read (m : MappedFile) (plen : Nat) : Nat × Option MFErr × MappedFile :=
  match m.data with
  | none => (0, some .closed, m)
  | some d =>
    if plen = 0 then (0, none, m)
    else if d.length ≤ m.off then (0, some .eof, m)
    else (min plen (d.length - m.off), none,
      { m with off := m.off + min plen (d.length - m.off) })

/-- MappedFile.Write from mappedfile.go on a source buffer p: the same
control flow as Read; on success the copied bytes overwrite the region at
the cursor, the offset advances by the count, and the region never grows. -/
def MappedFile.Write (m : MappedFile) (p : List Nat) : Nat × Option MFErr × MappedFile :=
  match m.data with
  | none => (0, some .closed, m)
  | some d =>
    if p.length = 0 then (0, none, m)
    else if d.length ≤ m.off then (0, some .eof, m)
    else
      (min p.length (d.length - m.off), none,
        { data := some (d.take m.off ++ p.take (min p.length (d.length - m.off)) ++
            d.drop (m.off + min p.length (d.length - m.off))),
          off := m.off + min p.length (d.length - m.off) })

/-! ## Concrete probe states used by the claim theorems and witnesses -/

/-- Free 2 then free 1 on a fresh 32-byte-block file, then allocate twice,
returning the two allocated indices. -/
def lifoProbe : Option (Nat × Nat) :=
  match runOps 32 (freshBF 32) [AFOp.free 2, AFOp.free 1] with
  | .error _ => none
  | .ok s =>
    match AllocateBlock 32 s with
    | .error _ => none
    | .ok (a, s2) =>
      match AllocateBlock 32 s2 with
      | .error _ => none
      | .ok (b, _) => some (a, b)

/-- A fresh 32-byte-block file after one free: the root stack holds one
entry. -/
def oneFreed : BFState := getOkS (FreeBlock 32 (freshBF 32) 7) (freshBF 32)

/-- Blocks 1..6 allocated, then 1,2,3 freed (root full) and 4 freed (4
becomes an empty overflow header with room). -/
def rootFullOverflowRoom : BFState :=
  getOkS (runOps 32 (freshBF 32)
    [AFOp.alloc, AFOp.alloc, AFOp.alloc, AFOp.alloc, AFOp.alloc, AFOp.alloc,
     AFOp.free 1, AFOp.free 2, AFOp.free 3, AFOp.free 4]) (freshBF 32)

/-- Blocks 1..8 allocated, then 1..7 freed: the root stack and the overflow
node at block 4 are both full. -/
def bothFull : BFState :=
  getOkS (runOps 32 (freshBF 32)
    [AFOp.alloc, AFOp.alloc, AFOp.alloc, AFOp.alloc, AFOp.alloc, AFOp.alloc,
     AFOp.alloc, AFOp.alloc,
     AFOp.free 1, AFOp.free 2, AFOp.free 3, AFOp.free 4, AFOp.free 5,
     AFOp.free 6, AFOp.free 7]) (freshBF 32)

/-- Blocks 1..8 allocated, 1..8 freed, then three allocations: the root is
empty again and its next points to block 8, itself an empty overflow
header. -/
def emptyOverflowProbe : BFState :=
  getOkS (runOps 32 (freshBF 32)
    [AFOp.alloc, AFOp.alloc, AFOp.alloc, AFOp.alloc, AFOp.alloc, AFOp.alloc,
     AFOp.alloc, AFOp.alloc,
     AFOp.free 1, AFOp.free 2, AFOp.free 3, AFOp.free 4, AFOp.free 5,
     AFOp.free 6, AFOp.free 7, AFOp.free 8,
     AFOp.alloc, AFOp.alloc, AFOp.alloc]) (freshBF 32)

/-- Freeing block 1 twice on a fresh file: both calls succeed. -/
def doubleFreeOps : List AFOp := [AFOp.free 1, AFOp.free 1]

/-- The state after the double free. -/
def doubleFreeState : BFState :=
  getOkS (runOps 32 (freshBF 32) doubleFreeOps) (freshBF 32)

/-- An open two-byte region whose cursor sits at the end. -/
def atEndRegion : MappedFile := { data := some [7, 7], off := 2 }

/-! ## Claim theorems -/

/-- C1: whenever the root node (block 0) of a block file validates and has
count > 0, AllocateBlock pops the top entry of the root stack (the entry at
index count-1), decrements count by one, and returns that entry; and reuse
is LIFO: after free(2); free(1) on an otherwise-empty free list, the next
two AllocateBlock calls return 1 then 2, in that order. -/
theorem allocate_pops_root_stack_lifo :
    (∀ (B : Nat) (s : BFState), mapHdrCheck B s 0 = none →
      (readHeader s 0).free_head ≠ 0 →
      AllocateBlock B s = .ok (s.mem 0 (5 + ((readHeader s 0).free_head - 1)),
        setWord s 0 4 ((readHeader s 0).free_head - 1))) ∧
    lifoProbe = some (1, 2) := by
  constructor
  · intro B s h1 h2
    exact allocate_pop_root B s h1 h2
  · rfl

/-- Witness for C1 at a concrete state: a fresh 32-byte-block file after one
free has count 1, and AllocateBlock pops that entry. -/
theorem allocate_pops_root_stack_lifo_witness :
    mapHdrCheck 32 oneFreed 0 = none ∧ (readHeader oneFreed 0).free_head ≠ 0 ∧
    AllocateBlock 32 oneFreed = .ok (oneFreed.mem 0 (5 + ((readHeader oneFreed 0).free_head - 1)),
      setWord oneFreed 0 4 ((readHeader oneFreed 0).free_head - 1)) :=
  ⟨by decide, by decide,
    allocate_pops_root_stack_lifo.1 32 oneFreed (by decide) (by decide)⟩

/-- C2: FreeBlock(i) pushes i onto the root stack when the root has room,
touching no other block; when the root is full and its nonzero next names a
validating node with room, i is pushed onto that node; when the root is full
and no overflow node can take the entry, block i itself is initialised as a
fresh free-list header with count 0 whose next is the root's current next,
and the root's next is then set to i. -/
theorem freeblock_three_paths :
    (∀ (B : Nat) (s : BFState) (i : Nat), mapHdrCheck B s 0 = none →
      (readHeader s 0).free_head < (readHeader s 0).free_len →
      FreeBlock B s (i : Int) = .ok (pushState s 0 (u32ofInt (i : Int))) ∧
      ∀ b w, b ≠ 0 → (pushState s 0 (u32ofInt (i : Int))).mem b w = s.mem b w) ∧
    (∀ (B : Nat) (s : BFState) (i : Nat), mapHdrCheck B s 0 = none →
      (readHeader s 0).free_len ≤ (readHeader s 0).free_head →
      (readHeader s 0).next ≠ 0 →
      mapHdrCheck B s ((readHeader s 0).next : Int) = none →
      (readHeader s (readHeader s 0).next).free_head
        < (readHeader s (readHeader s 0).next).free_len →
      FreeBlock B s (i : Int) =
        .ok (pushState s (readHeader s 0).next (u32ofInt (i : Int)))) ∧
    (∀ (B : Nat) (s : BFState) (i : Nat), mapHdrCheck B s 0 = none → B < U32 →
      (readHeader s 0).free_len ≤ (readHeader s 0).free_head →
      ((readHeader s 0).next = 0 ∨
        ((readHeader s 0).next ≠ 0 ∧
         mapHdrCheck B s ((readHeader s 0).next : Int) = none ∧
         (readHeader s (readHeader s 0).next).free_len
           ≤ (readHeader s (readHeader s 0).next).free_head)) →
      (i + 1) * B ≤ s.size →
      FreeBlock B s (i : Int) =
        .ok (setWord (setWord (initHeaderAt s i B) i 2 ((readHeader s 0).next % U32))
          0 2 (u32ofInt (i : Int)))) := by
  refine ⟨?_, ?_, ?_⟩
  · intro B s i h1 h2
    refine ⟨free_push_root B s (i : Int) h1 h2, ?_⟩
    intro b w hb
    simp [pushState, mem_setWord, hb]
  · intro B s i h1 h2 h3 h4 h5
    exact free_push_over B s (i : Int) h1 h2 h3 h4 h5
  · intro B s i h1 hU h2 h3 h4
    exact free_newheader B s i h1 hU h2 h3 h4

/-- Witness for C2 at three concrete states: a fresh file (path one), a
full root with an overflow node that has room (path two), and a full root
with a full overflow node (path three). -/
theorem freeblock_three_paths_witness :
    (mapHdrCheck 32 (freshBF 32) 0 = none ∧
     (readHeader (freshBF 32) 0).free_head < (readHeader (freshBF 32) 0).free_len ∧
     FreeBlock 32 (freshBF 32) ((1 : Nat) : Int) =
       .ok (pushState (freshBF 32) 0 (u32ofInt ((1 : Nat) : Int)))) ∧
    (mapHdrCheck 32 rootFullOverflowRoom 0 = none ∧
     FreeBlock 32 rootFullOverflowRoom ((5 : Nat) : Int) =
       .ok (pushState rootFullOverflowRoom (readHeader rootFullOverflowRoom 0).next
         (u32ofInt ((5 : Nat) : Int)))) ∧
    (mapHdrCheck 32 bothFull 0 = none ∧
     FreeBlock 32 bothFull ((8 : Nat) : Int) =
       .ok (setWord (setWord (initHeaderAt bothFull 8 32) 8 2
         ((readHeader bothFull 0).next % U32)) 0 2 (u32ofInt ((8 : Nat) : Int)))) :=
  ⟨⟨by decide, by decide,
     (freeblock_three_paths.1 32 (freshBF 32) 1 (by decide) (by decide)).1⟩,
   ⟨by decide,
     freeblock_three_paths.2.1 32 rootFullOverflowRoom 5 (by decide) (by decide)
       (by decide) (by decide) (by decide)⟩,
   ⟨by decide,
     freeblock_three_paths.2.2 32 bothFull 8 (by decide) (by decide) (by decide)
       (Or.inr ⟨by decide, by decide, by decide⟩) (by decide)⟩⟩

/-- C3: when the root has count 0 and its next names a nonzero validating
node n that also has count 0, AllocateBlock rewrites the root's next to n's
next and returns n itself as the allocated block, writing nothing but the
root's next field (and not growing the file); only this first overflow node
is involved in the call. -/
theorem allocate_consume_empty_overflow :
    ∀ (B : Nat) (s : BFState), mapHdrCheck B s 0 = none →
      (readHeader s 0).free_head = 0 → (readHeader s 0).next ≠ 0 →
      mapHdrCheck B s ((readHeader s 0).next : Int) = none →
      (readHeader s (readHeader s 0).next).free_head = 0 →
      AllocateBlock B s = .ok ((readHeader s 0).next,
        setWord s 0 2 ((readHeader s (readHeader s 0).next).next % U32)) ∧
      (∀ b w, ¬(b = 0 ∧ w = 2) →
        (setWord s 0 2 ((readHeader s (readHeader s 0).next).next % U32)).mem b w
          = s.mem b w) ∧
      (setWord s 0 2 ((readHeader s (readHeader s 0).next).next % U32)).size = s.size := by
  intro B s h1 h2 h3 h4 h5
  refine ⟨allocate_consume B s h1 h2 h3 h4 h5, ?_, rfl⟩
  intro b w hb
  simp [mem_setWord, hb]

/-- Witness for C3 at a concrete state with an emptied root whose next is
the empty overflow header at block 8. -/
theorem allocate_consume_empty_overflow_witness :
    mapHdrCheck 32 emptyOverflowProbe 0 = none ∧
    (readHeader emptyOverflowProbe 0).free_head = 0 ∧
    (readHeader emptyOverflowProbe 0).next ≠ 0 ∧
    AllocateBlock 32 emptyOverflowProbe = .ok ((readHeader emptyOverflowProbe 0).next,
      setWord emptyOverflowProbe 0 2
        ((readHeader emptyOverflowProbe (readHeader emptyOverflowProbe 0).next).next
          % U32)) :=
  ⟨by decide, by decide, by decide,
    (allocate_consume_empty_overflow 32 emptyOverflowProbe (by decide) (by decide)
      (by decide) (by decide) (by decide)).1⟩

/-- C4: with the root count 0 and next 0, AllocateBlock computes the
ceiling of size/B, truncates the mapper to one block more, and returns that
index; on a freshly created file it returns 1 and grows the file to 2B
bytes. -/
theorem allocate_extends_file :
    (∀ (B : Nat) (s : BFState), mapHdrCheck B s 0 = none →
      (readHeader s 0).free_head = 0 → (readHeader s 0).next = 0 →
      AllocateBlock B s = .ok ((s.size + B - 1) / B,
        { s with size := ((s.size + B - 1) / B + 1) * B })) ∧
    (∀ B : Nat, 20 ≤ B → B < U32 →
      AllocateBlock B (freshBF B) = .ok (1, { freshBF B with size := 2 * B })) := by
  constructor
  · intro B s h1 h2 h3
    exact allocate_extend B s h1 h2 h3
  · intro B h20 hU
    have hfresh : readHeader (freshBF B) 0 = ⟨BlockFileMagic, B, 0, goCapacity B, 0⟩ :=
      readHeader_initHeaderAt_same _ _ _
    have hg : GoodHdr B (freshBF B) 0 := ⟨by rw [hfresh], by rw [hfresh],
      by rw [hfresh]; exact goCapacity_eq B h20 hU, by rw [hfresh]; simp⟩
    have hchk : mapHdrCheck B (freshBF B) 0 = none :=
      root_check B (freshBF B) h20 hU hg (le_refl B)
    have h0 : (readHeader (freshBF B) 0).free_head = 0 := by rw [hfresh]
    have hn : (readHeader (freshBF B) 0).next = 0 := by rw [hfresh]
    have hres := allocate_extend B (freshBF B) hchk h0 hn
    have hsz : (freshBF B).size = B := rfl
    rw [hsz] at hres
    have hdiv : (B + B - 1) / B = 1 := by
      have h := ceil_eq_div B B (by omega) (dvd_refl B)
      rw [Nat.div_self (by omega : 0 < B)] at h
      exact h
    rw [hdiv] at hres
    rw [show (1 + 1) * B = 2 * B by ring] at hres
    exact hres

/-- Witness for C4 at B = 4096: the extension branch on a fresh file with
the default block size returns 1 and grows the file to 8192 bytes. -/
theorem allocate_extends_file_witness :
    (20 ≤ 4096 ∧ 4096 < U32) ∧
    AllocateBlock 4096 (freshBF 4096) = .ok (1, { freshBF 4096 with size := 2 * 4096 }) :=
  ⟨⟨by decide, by decide⟩, allocate_extends_file.2 4096 (by decide) (by decide)⟩

/-- C5 counterexample: the claim quantifies over every sequence of
AllocateBlock and FreeBlock calls, but FreeBlock validates nothing, so
freeing block 1 twice on a fresh file succeeds and leaves the root listing
the entry 1 twice: the entries across the chain are then not distinct. -/
theorem freelist_invariant_counterexample :
    (runOps 32 (freshBF 32) doubleFreeOps).toOption.isSome = true ∧
    ¬ FreeListInvariant doubleFreeState := by
  constructor
  · rfl
  · rintro ⟨-, h⟩
    have hnil : links doubleFreeState 0 [] :=
      (by decide : (readHeader doubleFreeState 0).next = 0)
    have h2 := h [] hnil
    have hdup : entriesOf doubleFreeState [0] = [1, 1] := by decide
    have : ¬ ([1, 1] : List Nat).Nodup := by decide
    exact this (hdup ▸ h2.2.1)

/-- C5 amended: for every sequence of AllocateBlock and FreeBlock calls
starting from a freshly created block file in which every freed index is
currently allocated (returned by an earlier AllocateBlock and not freed
since, and below 2^32), after every operation the free-list chain reached by
following next from block 0 is acyclic, every block index listed across its
nodes is distinct, and count does not exceed capacity on every node. -/
theorem freelist_invariant_wellformed (B : Nat) (s : BFState) (A : List Nat)
    (h20 : 20 ≤ B) (hU : B < U32) (t : Trace B s A) : FreeListInvariant s := by
  obtain ⟨ch, inv⟩ := trace_invFull B h20 hU t
  exact invFull_freeListInvariant B s A ch inv

/-- Witness for the amended C5 at the fresh 32-byte-block file (the empty
trace). -/
theorem freelist_invariant_wellformed_witness :
    20 ≤ 32 ∧ 32 < U32 ∧ FreeListInvariant (freshBF 32) :=
  ⟨by decide, by decide,
    freelist_invariant_wellformed 32 (freshBF 32) [] (by decide) (by decide) Trace.init⟩

/-- C6: MapBlock rejects every request for a block index of at most 0 before
consulting the mapper, so block 0 (the root header) is never handed to a
client handler: a request is only delegated to the mapper when the index is
at least 1. -/
theorem mapblock_rejects_root :
    (∀ (B : Nat) (i : Int), i ≤ 0 → MapBlock B i = .rejected) ∧
    (∀ (B : Nat) (i : Int) (off : Int) (len : Nat),
      MapBlock B i = .mapped off len → 1 ≤ i) := by
  constructor
  · intro B i h
    simp [MapBlock, h]
  · intro B i off len h
    by_contra hcon
    push_neg at hcon
    have hle : i ≤ 0 := by omega
    simp [MapBlock, hle] at h

/-- Witness for C6 at index 0 with the default block size. -/
theorem mapblock_rejects_root_witness :
    (0 : Int) ≤ 0 ∧ MapBlock 4096 0 = MapAccess.rejected :=
  ⟨le_refl 0, mapblock_rejects_root.1 4096 0 (le_refl 0)⟩

/-- C7: opening a region of at least header size whose first header word is
the byte-swapped magic 0x1EF10CB1 fails with the specific foreign-platform
error, while any other wrong magic yields the distinct generic
unexpected-magic error. -/
theorem open_foreign_magic_distinct :
    (∀ s : BFState, 20 ≤ s.size → s.mem 0 0 = reversedBlockFileMagic →
      OpenBlockFileFromMapper s = .error .foreignPlatform) ∧
    (∀ s : BFState, 20 ≤ s.size → s.mem 0 0 ≠ BlockFileMagic →
      s.mem 0 0 ≠ reversedBlockFileMagic →
      OpenBlockFileFromMapper s = .error .badMagic) ∧
    BFError.foreignPlatform ≠ BFError.badMagic := by
  refine ⟨?_, ?_, by decide⟩
  · intro s hsz hm
    have h1 : ¬ ((s.size : Int) < 20) := by omega
    have hval : (readHeader s 0).Validate = some .foreignPlatform := by
      unfold bfHeader.Validate
      rw [show (readHeader s 0).magic = s.mem 0 0 from rfl, hm]
      simp
    unfold OpenBlockFileFromMapper
    rw [if_neg h1, hval]
  · intro s hsz hm hrev
    have h1 : ¬ ((s.size : Int) < 20) := by omega
    have hval : (readHeader s 0).Validate = some .badMagic := by
      unfold bfHeader.Validate
      rw [show (readHeader s 0).magic = s.mem 0 0 from rfl, if_neg hrev, if_pos hm]
    unfold OpenBlockFileFromMapper
    rw [if_neg h1, hval]

/-- Witness for C7 on two concrete 20-byte regions, one with the
byte-swapped magic and one with a zero magic. -/
theorem open_foreign_magic_distinct_witness :
    OpenBlockFileFromMapper
      { size := 20, mem := fun _ w => if w = 0 then reversedBlockFileMagic else 0 }
      = .error BFError.foreignPlatform ∧
    OpenBlockFileFromMapper { size := 20, mem := fun _ _ => 0 }
      = .error BFError.badMagic :=
  ⟨open_foreign_magic_distinct.1
      { size := 20, mem := fun _ w => if w = 0 then reversedBlockFileMagic else 0 }
      (by decide) (by decide),
   open_foreign_magic_distinct.2.1 { size := 20, mem := fun _ _ => 0 }
      (by decide) (by decide) (by decide)⟩

/-- A crafted root header whose free_len is 2^30: the uint32 product
free_len*4 wraps to 0, so the fit check in bfHeader.Validate passes even
though 20 + free_len*4 far exceeds the 4096-byte block. -/
def wrapHeaderState : BFState :=
  { size := 4096,
    mem := fun b w =>
      if b = 0 then
        if w = 0 then BlockFileMagic
        else if w = 1 then 4096
        else if w = 3 then 1073741824
        else 0
      else 0 }

/-- C8 counterexample: this region opens successfully although the header
plus capacity*4 bytes do not fit within the stored block size, because the
code computes the fit check in wrapping uint32 arithmetic. -/
theorem open_validate_wrap_counterexample :
    OpenBlockFileFromMapper wrapHeaderState = .ok 4096 ∧
    ¬ (20 + (readHeader wrapHeaderState 0).free_len * 4
        ≤ (readHeader wrapHeaderState 0).blocksize) := by
  constructor
  · rfl
  · decide

/-- C8 amended: opening a block file from a mapper succeeds, yielding the
stored block size, exactly when the region holds the 20 header bytes, the
magic is 0xB10CF11E, count does not exceed capacity, the fit check
20 + capacity*4 <= blocksize holds in wrapping 32-bit arithmetic (mod 2^32),
and the mapper holds at least the stored block size. -/
theorem open_succeeds_iff (s : BFState) (r : Nat) :
    OpenBlockFileFromMapper s = .ok r ↔
      (20 ≤ s.size ∧ (readHeader s 0).magic = BlockFileMagic ∧
       (readHeader s 0).free_head ≤ (readHeader s 0).free_len ∧
       (20 + (readHeader s 0).free_len * 4) % U32 ≤ (readHeader s 0).blocksize ∧
       (readHeader s 0).blocksize ≤ s.size ∧ r = (readHeader s 0).blocksize) := by
  unfold OpenBlockFileFromMapper
  constructor
  · intro h
    by_cases h1 : (s.size : Int) < 20
    · rw [if_pos h1] at h
      exact absurd h (by simp)
    · rw [if_neg h1] at h
      have h20 : 20 ≤ s.size := by omega
      cases hval : (readHeader s 0).Validate with
      | some e =>
        rw [hval] at h
        exact absurd h (by simp)
      | none =>
        rw [hval] at h
        obtain ⟨hm, hfl, hcap⟩ := (validate_none_iff _).mp hval
        by_cases h2 : s.size < (readHeader s 0).blocksize
        · rw [if_pos h2] at h
          exact absurd h (by simp)
        · rw [if_neg h2] at h
          simp only [Except.ok.injEq] at h
          exact ⟨h20, hm, hfl, hcap, not_lt.mp h2, h.symm⟩
  · rintro ⟨h20, hm, hfl, hcap, hbs, hr⟩
    rw [if_neg (by omega : ¬ ((s.size : Int) < 20)),
      (validate_none_iff _).mpr ⟨hm, hfl, hcap⟩, if_neg (not_lt.mpr hbs), hr]

/-- Witness for the amended C8: the fresh 32-byte-block file opens with
block size 32 via the backward direction, and the forward direction recovers
the conditions. -/
theorem open_succeeds_iff_witness :
    OpenBlockFileFromMapper (freshBF 32) = .ok 32 :=
  (open_succeeds_iff (freshBF 32) 32).mpr
    ⟨by decide, by decide, by decide, by decide, by decide, by decide⟩

/-- C9 counterexample: a cursor-style Read on an open region whose cursor
sits at the end of the region returns (0, nil), not the end-of-file
sentinel, when the destination buffer is empty, because the zero-length test
precedes the end-of-region test. -/
theorem cursor_eof_counterexample :
    atEndRegion.data ≠ none ∧
    (∀ d, atEndRegion.data = some d → d.length ≤ atEndRegion.off) ∧
    MappedFile.Read atEndRegion 0 = (0, none, atEndRegion) ∧
    (MappedFile.Read atEndRegion 0).2.1 ≠ some MFErr.eof := by
  refine ⟨by decide, ?_, by decide, by decide⟩
  intro d hd
  have : d = [7, 7] := by
    have : some d = some [7, 7] := hd.symm.trans rfl
    exact Option.some.injEq _ _ ▸ this
  subst this
  decide

/-- C9 amended: a cursor Read or Write on a closed region returns the fixed
closed error; a call with a nonempty buffer while the cursor is at or past
the end of the region returns a zero count with the io.EOF sentinel; a call
with an empty buffer returns a zero count with no error; otherwise the call
copies up to the end of the region, returns the possibly short count
min(buffer length, region length - cursor), advances the cursor by that
count, and never grows the region. -/
theorem cursor_read_write_amended :
    (∀ (m : MappedFile) (plen : Nat), m.data = none →
      MappedFile.Read m plen = (0, some .closed, m)) ∧
    (∀ (m : MappedFile) (p : List Nat), m.data = none →
      MappedFile.Write m p = (0, some .closed, m)) ∧
    (∀ (m : MappedFile) (d : List Nat) (plen : Nat), m.data = some d → 0 < plen →
      d.length ≤ m.off → MappedFile.Read m plen = (0, some .eof, m)) ∧
    (∀ (m : MappedFile) (d : List Nat) (p : List Nat), m.data = some d →
      0 < p.length → d.length ≤ m.off → MappedFile.Write m p = (0, some .eof, m)) ∧
    (∀ (m : MappedFile) (d : List Nat), m.data = some d →
      MappedFile.Read m 0 = (0, none, m) ∧ MappedFile.Write m [] = (0, none, m)) ∧
    (∀ (m : MappedFile) (d : List Nat) (plen : Nat), m.data = some d → 0 < plen →
      m.off < d.length →
      MappedFile.Read m plen = (min plen (d.length - m.off), none,
        { m with off := m.off + min plen (d.length - m.off) })) ∧
    (∀ (m : MappedFile) (d : List Nat) (p : List Nat), m.data = some d →
      0 < p.length → m.off < d.length →
      MappedFile.Write m p = (min p.length (d.length - m.off), none,
        { data := some (d.take m.off ++ p.take (min p.length (d.length - m.off)) ++
            d.drop (m.off + min p.length (d.length - m.off))),
          off := m.off + min p.length (d.length - m.off) }) ∧
      ∀ d2, (MappedFile.Write m p).2.2.data = some d2 → d2.length = d.length) := by
  refine ⟨?_, ?_, ?_, ?_, ?_, ?_, ?_⟩
  · intro m plen hd
    simp [MappedFile.Read, hd]
  · intro m p hd
    simp [MappedFile.Write, hd]
  · intro m d plen hd hp hoff
    simp [MappedFile.Read, hd, Nat.pos_iff_ne_zero.mp hp, hoff]
  · intro m d p hd hp hoff
    simp [MappedFile.Write, hd, Nat.pos_iff_ne_zero.mp hp, hoff]
  · intro m d hd
    constructor
    · simp [MappedFile.Read, hd]
    · simp [MappedFile.Write, hd]
  · intro m d plen hd hp hoff
    simp [MappedFile.Read, hd, Nat.pos_iff_ne_zero.mp hp, not_le.mpr hoff]
  · intro m d p hd hp hoff
    have hw : MappedFile.Write m p = (min p.length (d.length - m.off), none,
        { data := some (d.take m.off ++ p.take (min p.length (d.length - m.off)) ++
            d.drop (m.off + min p.length (d.length - m.off))),
          off := m.off + min p.length (d.length - m.off) }) := by
      simp [MappedFile.Write, hd, Nat.pos_iff_ne_zero.mp hp, not_le.mpr hoff]
    refine ⟨hw, ?_⟩
    intro d2 hd2
    rw [hw] at hd2
    simp only [Option.some.injEq] at hd2
    subst hd2
    simp only [List.length_append, List.length_take, List.length_drop]
    omega

/-- Witness for the amended C9: a closed region, a nonempty read at the end
of an open region, and a short read crossing the end of the region. -/
theorem cursor_read_write_amended_witness :
    MappedFile.Read { data := none, off := 0 } 4
      = (0, some MFErr.closed, { data := none, off := 0 }) ∧
    MappedFile.Read atEndRegion 1 = (0, some MFErr.eof, atEndRegion) ∧
    MappedFile.Read { data := some [7, 7], off := 0 } 5
      = (2, none, { data := some [7, 7], off := 2 }) :=
  ⟨cursor_read_write_amended.1 { data := none, off := 0 } 4 rfl,
   cursor_read_write_amended.2.2.1 atEndRegion [7, 7] 1 rfl (by decide) (by decide),
   cursor_read_write_amended.2.2.2.2.2.1 { data := some [7, 7], off := 0 } [7, 7] 5
     rfl (by decide) (by decide)⟩

/-- C10: when the root node has spare capacity, FreeBlock accepts any
integer index i without mapping or inspecting block i: it succeeds by
pushing uint32(i) onto the root stack, writing nothing outside block 0, and
a subsequent AllocateBlock returns that same value for every i in the uint32
range, including 0, an index already on the free list, or an index beyond
the end of the file. -/
theorem freeblock_unvalidated_index :
    (∀ (B : Nat) (s : BFState) (i : Int), mapHdrCheck B s 0 = none →
      (readHeader s 0).free_head < (readHeader s 0).free_len →
      FreeBlock B s i = .ok (pushState s 0 (u32ofInt i)) ∧
      ∀ b w, b ≠ 0 → (pushState s 0 (u32ofInt i)).mem b w = s.mem b w) ∧
    (∀ (B : Nat) (s : BFState) (i : Int), mapHdrCheck B s 0 = none →
      (readHeader s 0).free_head < (readHeader s 0).free_len →
      0 ≤ i → i < (U32 : Int) →
      AllocateBlock B (pushState s 0 (u32ofInt i)) =
        .ok (i.toNat,
          setWord (pushState s 0 (u32ofInt i)) 0 4 ((readHeader s 0).free_head))) := by
  constructor
  · intro B s i h1 h2
    refine ⟨free_push_root B s i h1 h2, ?_⟩
    intro b w hb
    simp [pushState, mem_setWord, hb]
  · intro B s i h1 h2 hge hlt
    have hrh : readHeader (pushState s 0 (u32ofInt i)) 0 =
        { readHeader s 0 with free_head := (readHeader s 0).free_head + 1 } :=
      readHeader_pushState s 0 _
    have h1n : mapHdrCheck B s (((0 : Nat) : Int)) = none := by
      rw [Nat.cast_zero]
      exact h1
    obtain ⟨hszb, h20, hval⟩ := (mapHdrCheck_none_iff B s 0).mp h1n
    obtain ⟨hm, hfl, hcap⟩ := (validate_none_iff _).mp hval
    have hchkn : mapHdrCheck B (pushState s 0 (u32ofInt i)) (((0 : Nat) : Int)) = none := by
      rw [mapHdrCheck_none_iff]
      refine ⟨?_, h20, ?_⟩
      · rw [size_pushState]
        exact hszb
      · rw [hrh, validate_none_iff]
        refine ⟨by simpa using hm, by simp; omega, by simpa using hcap⟩
    have hchk0 : mapHdrCheck B (pushState s 0 (u32ofInt i)) 0 = none := by
      rw [← Nat.cast_zero]
      exact hchkn
    have hne : (readHeader (pushState s 0 (u32ofInt i)) 0).free_head ≠ 0 := by
      rw [hrh]
      simp
    have hres := allocate_pop_root B (pushState s 0 (u32ofInt i)) hchk0 hne
    have htop : topOf (pushState s 0 (u32ofInt i)) 0 = u32ofInt i := by
      unfold topOf
      rw [hrh]
      simp [pushState, mem_setWord]
    have hu : u32ofInt i = i.toNat := by
      unfold u32ofInt
      rw [Int.emod_eq_of_lt hge hlt]
    have hpop : popState (pushState s 0 (u32ofInt i)) 0 =
        setWord (pushState s 0 (u32ofInt i)) 0 4 ((readHeader s 0).free_head) := by
      unfold popState
      rw [hrh]
      simp
    rw [htop, hpop] at hres
    rw [← hu]
    exact hres

/-- Witness for C10 at index 0 on a fresh file: FreeBlock(0) succeeds and
the next AllocateBlock returns 0, the root header block itself. -/
theorem freeblock_unvalidated_index_witness :
    FreeBlock 32 (freshBF 32) 0 = .ok (pushState (freshBF 32) 0 (u32ofInt 0)) ∧
    AllocateBlock 32 (pushState (freshBF 32) 0 (u32ofInt 0)) =
      .ok ((0 : Int).toNat,
        setWord (pushState (freshBF 32) 0 (u32ofInt 0)) 0 4
          ((readHeader (freshBF 32) 0).free_head)) :=
  ⟨(freeblock_unvalidated_index.1 32 (freshBF 32) 0 (by decide) (by decide)).1,
   freeblock_unvalidated_index.2 32 (freshBF 32) 0 (by decide) (by decide)
     (by decide) (by decide)⟩
